import Mathlib

/-!
Verification of the deanonymization utilities of the glass-box PII guardrail.

Texts are modelled as `List Char`; a `Record<string, string>` mapping is an
insertion-ordered association list with the keys unique, as JavaScript object
keys are.  The functions `deanonymize`, `containsPlaceholders` and
`extractPlaceholders` are translated from the TypeScript source; the
anonymizer (which lives outside the translated sources) is modelled from the
specification where a claim needs it.
-/

namespace GlassBox

/-- A mapping of placeholder tokens to original values
(`Record<string, string>`, insertion ordered). -/
abbrev Mapping := List (List Char × List Char)

/-- Characters allowed in an entity type name: uppercase letters and the
underscore (the `[A-Z_]` class of the source regexes). -/
def isTypeChar (c : Char) : Bool := ('A' ≤ c && c ≤ 'Z') || c == '_'

/-- Decimal digit characters (the `\d` class of the source regexes). -/
def isDigitCh (c : Char) : Bool := ('0' ≤ c && c ≤ '9')

/-- Fuel-driven worker for `replaceAll`.  One unit of fuel is spent per step;
each step consumes at least one character of the text, so `text.length` fuel
always suffices. -/
def replaceAllF (pat rep : List Char) : Nat → List Char → List Char
  | 0, l => l
  | _ + 1, [] => []
  | fuel + 1, c :: cs =>
    if pat.isPrefixOf (c :: cs) && !pat.isEmpty then
      rep ++ replaceAllF pat rep fuel (List.drop pat.length (c :: cs))
    else
      c :: replaceAllF pat rep fuel cs

/-- `text.split(pat).join(rep)` for a non-empty separator `pat`: replace every
leftmost non-overlapping occurrence of `pat` in the text by `rep`
(exact-string matching, no re-scanning of the replacement). -/
def replaceAll (pat rep text : List Char) : List Char :=
  replaceAllF pat rep text.length text

/-- `text.split("").join(rep)`: JavaScript splits an empty separator into the
individual characters, so joining interleaves `rep` between them. -/
def interleave (rep : List Char) : List Char → List Char
  | [] => []
  | [c] => [c]
  | c :: c' :: cs => c :: (rep ++ interleave rep (c' :: cs))

/-- `text.split(pat).join(rep)` with the JavaScript semantics for both empty
and non-empty separators. -/
def splitJoin (pat rep text : List Char) : List Char :=
  if pat = [] then interleave rep text else replaceAll pat rep text

/-- Stable insertion of a key into a list sorted by length descending:
the new element goes after every strictly longer element and before the first
element of smaller or equal length, as the stable JavaScript
`sort((a, b) => b.length - a.length)` does for an element that preceded the
others. -/
def insertDesc (a : List Char) : List (List Char) → List (List Char)
  | [] => [a]
  | b :: l => if a.length < b.length then b :: insertDesc a l else a :: b :: l

/-- Stable sort of the mapping keys by token length descending
(`Object.keys(mapping).sort((a, b) => b.length - a.length)`). -/
def sortByLenDesc : List (List Char) → List (List Char)
  | [] => []
  | a :: l => insertDesc a (sortByLenDesc l)

/-- `mapping[placeholder]`: value associated with a key of the mapping. -/
def getVal (m : Mapping) (k : List Char) : List Char :=
  (m.lookup k).getD []

/-- Translation of the source `deanonymize`: falsy text or an empty mapping
is returned unchanged; otherwise the keys are sorted by length descending and
each is globally replaced by its original value via `split`/`join`. -/
def deanonymize (text : List Char) (m : Mapping) : List Char :=
  if text = [] ∨ m = [] then text
  else
    (sortByLenDesc (m.map Prod.fst)).foldl
      (fun result placeholder => splitJoin placeholder (getVal m placeholder) result) text

/-! ### Basic equations for `replaceAll` -/

theorem replaceAllF_fuel {pat rep : List Char} :
    ∀ f₁ f₂ l, l.length ≤ f₁ → l.length ≤ f₂ →
      replaceAllF pat rep f₁ l = replaceAllF pat rep f₂ l := by
  intro f₁
  induction f₁ with
  | zero =>
    intro f₂ l h₁ _
    have : l = [] := List.eq_nil_of_length_eq_zero (Nat.le_zero.mp h₁)
    subst this
    cases f₂ <;> rfl
  | succ f ih =>
    intro f₂ l h₁ h₂
    cases l with
    | nil => cases f₂ <;> rfl
    | cons c cs =>
      cases f₂ with
      | zero => simp at h₂
      | succ f' =>
        simp only [replaceAllF]
        by_cases hg : (pat.isPrefixOf (c :: cs) && !pat.isEmpty) = true
        · rw [if_pos hg, if_pos hg]
          have hp : 1 ≤ pat.length := by
            rcases pat with _ | ⟨p, ps⟩
            · simp [List.isEmpty] at hg
            · simp
          have hd : (List.drop pat.length (c :: cs)).length ≤ f := by
            have : (List.drop pat.length (c :: cs)).length = (c :: cs).length - pat.length := by
              simp
            omega
          have hd' : (List.drop pat.length (c :: cs)).length ≤ f' := by
            have : (List.drop pat.length (c :: cs)).length = (c :: cs).length - pat.length := by
              simp
            omega
          rw [ih f' _ hd hd']
        · rw [if_neg hg, if_neg hg]
          have hc : cs.length ≤ f := by simp at h₁; omega
          have hc' : cs.length ≤ f' := by simp at h₂; omega
          rw [ih f' _ hc hc']

theorem replaceAll_nil (pat rep : List Char) : replaceAll pat rep [] = [] := by
  simp [replaceAll, replaceAllF]

theorem replaceAll_pos {pat : List Char} (rep : List Char) {c : Char} {cs : List Char}
    (h : pat.isPrefixOf (c :: cs) = true) (hp : pat ≠ []) :
    replaceAll pat rep (c :: cs) = rep ++ replaceAll pat rep (List.drop pat.length (c :: cs)) := by
  have hg : (pat.isPrefixOf (c :: cs) && !pat.isEmpty) = true := by
    simp [h, List.isEmpty_iff, hp]
  show replaceAllF pat rep (c :: cs).length (c :: cs) = _
  rw [show (c :: cs).length = cs.length + 1 from rfl]
  simp only [replaceAllF, hg, if_pos]
  congr 1
  apply replaceAllF_fuel
  · have hlen : (List.drop pat.length (c :: cs)).length = cs.length + 1 - pat.length := by
      simp
    have hp1 : 1 ≤ pat.length := by
      rcases pat with _ | _
      · exact absurd rfl hp
      · simp
    omega
  · exact Nat.le_refl _

theorem replaceAll_neg {pat : List Char} (rep : List Char) {c : Char} {cs : List Char}
    (h : ¬ (pat.isPrefixOf (c :: cs) = true ∧ pat ≠ [])) :
    replaceAll pat rep (c :: cs) = c :: replaceAll pat rep cs := by
  have hg : (pat.isPrefixOf (c :: cs) && !pat.isEmpty) = false := by
    rcases Decidable.em (pat = []) with hpat | hpat
    · simp [List.isEmpty_iff, hpat]
    · have : pat.isPrefixOf (c :: cs) = false := by
        cases hb : pat.isPrefixOf (c :: cs)
        · rfl
        · exact absurd ⟨hb, hpat⟩ h
      simp [this]
  show replaceAllF pat rep (c :: cs).length (c :: cs) = _
  rw [show (c :: cs).length = cs.length + 1 from rfl]
  simp only [replaceAllF, hg, Bool.false_eq_true, if_false]
  rfl

/-! ### Occurrence analysis for `replaceAll` -/

theorem replaceAll_no_occurrence {pat : List Char} (rep : List Char) :
    ∀ l, ¬ pat <:+: l → replaceAll pat rep l = l := by
  intro l
  induction l with
  | nil => intro _; exact replaceAll_nil pat rep
  | cons c cs ih =>
    intro h
    have hguard : ¬ (pat.isPrefixOf (c :: cs) = true ∧ pat ≠ []) := by
      rintro ⟨hpre, _⟩
      obtain ⟨t, ht⟩ := List.isPrefixOf_iff_prefix.mp hpre
      exact h ⟨[], t, by simpa using ht⟩
    rw [replaceAll_neg rep hguard]
    have hcs : ¬ pat <:+: cs := by
      rintro ⟨s, t, hst⟩
      exact h ⟨c :: s, t, by simp [← hst]⟩
    rw [ih hcs]

/-- No occurrence of `pat` starts at any position strictly inside `a` when the
text continues with `rest`. -/
def NoStart (pat a rest : List Char) : Prop :=
  ∀ i, i < a.length → ¬ pat <+: (List.drop i a ++ rest)

theorem noStart_cons {pat : List Char} {c : Char} {cs rest : List Char}
    (h : NoStart pat (c :: cs) rest) : NoStart pat cs rest := by
  intro i hi
  exact h (i + 1) (by simpa using Nat.succ_lt_succ hi)

theorem replaceAll_pass {pat : List Char} (rep : List Char) :
    ∀ a rest, NoStart pat a rest →
      replaceAll pat rep (a ++ rest) = a ++ replaceAll pat rep rest := by
  intro a
  induction a with
  | nil => intro rest _; simp
  | cons c cs ih =>
    intro rest h
    have hguard : ¬ (pat.isPrefixOf (c :: (cs ++ rest)) = true ∧ pat ≠ []) := by
      rintro ⟨hpre, _⟩
      have := List.isPrefixOf_iff_prefix.mp hpre
      exact h 0 (by simp) (by simpa using this)
    have : replaceAll pat rep (c :: (cs ++ rest)) = c :: replaceAll pat rep (cs ++ rest) :=
      replaceAll_neg rep hguard
    simpa [this] using congrArg (c :: ·) (ih rest (noStart_cons h))

theorem replaceAll_head_match {pat : List Char} (rep rest : List Char) (hp : pat ≠ []) :
    replaceAll pat rep (pat ++ rest) = rep ++ replaceAll pat rep rest := by
  rcases hpat : pat with _ | ⟨p, ps⟩
  · exact absurd hpat hp
  · have hpre : pat.isPrefixOf (pat ++ rest) = true :=
      List.isPrefixOf_iff_prefix.mpr ⟨rest, rfl⟩
    rw [← hpat]
    rw [show pat ++ rest = p :: (ps ++ rest) by rw [hpat]; simp]
    have hpre' : pat.isPrefixOf (p :: (ps ++ rest)) = true := by
      rw [hpat] at hpre ⊢
      simp only [List.cons_append] at hpre
      exact hpre
    rw [replaceAll_pos rep hpre' hp]
    congr 1
    rw [show p :: (ps ++ rest) = pat ++ rest by rw [hpat]; simp]
    rw [List.drop_left]

/-! ### Placeholder-shaped tokens -/

/-- A token of the placeholder shape used by the mapping keys: it starts with
`<`, ends with `>`, and has no angle bracket in between.  This is the shape
guaranteed by the `<TYPE_N>` grammar. -/
def shapedTokB (k : List Char) : Bool :=
  match k with
  | [] => false
  | c :: rest =>
      c == '<' && !rest.isEmpty && rest.getLast? == some '>' &&
        rest.dropLast.all (fun x => !(x == '<') && !(x == '>'))

theorem shapedTok_spec {k : List Char} (h : shapedTokB k = true) :
    ∃ inner, k = '<' :: (inner ++ ['>']) ∧ ∀ c ∈ inner, c ≠ '<' ∧ c ≠ '>' := by
  rcases k with _ | ⟨c, rest⟩
  · simp [shapedTokB] at h
  · simp only [shapedTokB, Bool.and_eq_true, beq_iff_eq, List.all_eq_true,
      Bool.not_eq_true'] at h
    obtain ⟨⟨⟨hc, hne0⟩, hlast⟩, hmid⟩ := h
    have hne : rest ≠ [] := by
      cases rest
      · simp at hne0
      · simp
    refine ⟨rest.dropLast, ?_, ?_⟩
    · rw [hc]
      congr 1
      have := List.dropLast_append_getLast hne
      rw [List.getLast?_eq_getLast rest hne] at hlast
      simp only [Option.some.injEq] at hlast
      rw [hlast] at this
      exact this.symm
    · intro c hc
      have := hmid c hc
      constructor
      · intro hh; rw [hh] at this; simp at this
      · intro hh; rw [hh] at this; simp at this

theorem shaped_ne_nil {k : List Char} (h : shapedTokB k = true) : k ≠ [] := by
  obtain ⟨inner, hk, _⟩ := shapedTok_spec h
  simp [hk]

theorem pref_append_cases {p : List Char} :
    ∀ {a b : List Char}, p <+: (a ++ b) →
      p <+: a ∨ (a <+: p ∧ List.drop a.length p <+: b) := by
  intro a
  induction a generalizing p with
  | nil =>
    intro b h
    right
    exact ⟨⟨p, rfl⟩, by simpa using h⟩
  | cons x xs ih =>
    intro b h
    rcases p with _ | ⟨y, ys⟩
    · left; exact ⟨x :: xs, rfl⟩
    · obtain ⟨t, ht⟩ := h
      simp only [List.cons_append, List.cons.injEq] at ht
      obtain ⟨hxy, hrest⟩ := ht
      rcases ih ⟨t, hrest⟩ with h1 | ⟨h2, h3⟩
      · left
        obtain ⟨u, hu⟩ := h1
        exact ⟨u, by simp [hxy, hu]⟩
      · right
        refine ⟨?_, ?_⟩
        · obtain ⟨u, hu⟩ := h2
          exact ⟨u, by simp [hxy, hu]⟩
        · simpa using h3

theorem gt_mem_of_append_eq {xi u yi : List Char} (hu : u ≠ [])
    (he : xi ++ '>' :: u = yi ++ ['>']) : '>' ∈ yi := by
  have hlen : xi.length + 1 + u.length = yi.length + 1 := by
    have := congrArg List.length he
    simp at this
    omega
  have hxy : xi.length < yi.length := by
    have : 1 ≤ u.length := by
      rcases u with _ | _
      · exact absurd rfl hu
      · simp
    omega
  have hdrop := congrArg (List.drop xi.length) he
  rw [List.drop_left] at hdrop
  rw [List.drop_append_of_le_length (Nat.le_of_lt hxy)] at hdrop
  rcases hdk : List.drop xi.length yi with _ | ⟨d, ds⟩
  · have : yi.length - xi.length = 0 := by
      have := congrArg List.length hdk
      simpa using this
    omega
  · rw [hdk] at hdrop
    simp only [List.cons_append, List.cons.injEq] at hdrop
    have hd : d = '>' := hdrop.1.symm
    have : d ∈ yi := List.drop_subset _ _ (by rw [hdk]; exact List.mem_cons_self d ds)
    rwa [hd] at this

theorem shaped_pref_eq {p k : List Char} (hp : shapedTokB p = true)
    (hk : shapedTokB k = true) {rest : List Char} (h : p <+: (k ++ rest)) : p = k := by
  obtain ⟨pi, hpe, hpc⟩ := shapedTok_spec hp
  obtain ⟨ki, hke, hkc⟩ := shapedTok_spec hk
  rcases pref_append_cases h with h1 | ⟨h2, _⟩
  · obtain ⟨u, hu⟩ := h1
    rcases Decidable.em (u = []) with hue | hue
    · rw [hue] at hu; simpa using hu
    · exfalso
      rw [hpe, hke] at hu
      simp only [List.cons_append, List.cons.injEq, true_and] at hu
      have hu' : pi ++ '>' :: u = ki ++ ['>'] := by
        simpa using hu
      exact ((hkc '>' (gt_mem_of_append_eq hue hu')).2) rfl
  · obtain ⟨w, hw⟩ := h2
    rcases Decidable.em (w = []) with hwe | hwe
    · rw [hwe] at hw; simpa using hw.symm
    · exfalso
      rw [hpe, hke] at hw
      simp only [List.cons_append, List.cons.injEq, true_and] at hw
      have hw' : ki ++ '>' :: w = pi ++ ['>'] := by
        simpa using hw
      exact ((hpc '>' (gt_mem_of_append_eq hwe hw')).2) rfl

theorem noStart_no_lt {pat : List Char} (hp : shapedTokB pat = true)
    {a : List Char} (ha : '<' ∉ a) (rest : List Char) : NoStart pat a rest := by
  obtain ⟨pi, hpe, _⟩ := shapedTok_spec hp
  intro i hi hpre
  rcases hdi : List.drop i a with _ | ⟨x, xs⟩
  · have : a.length - i = 0 := by
      have := congrArg List.length hdi
      simpa using this
    omega
  · rw [hdi] at hpre
    obtain ⟨t, ht⟩ := hpre
    rw [hpe] at ht
    simp only [List.cons_append, List.cons.injEq] at ht
    have : x ∈ a := List.drop_subset i a (by rw [hdi]; exact List.mem_cons_self x xs)
    rw [← ht.1] at this
    exact ha this

theorem noStart_inside_shaped {pat k : List Char} (hp : shapedTokB pat = true)
    (hk : shapedTokB k = true) (hne : k ≠ pat) (rest : List Char) : NoStart pat k rest := by
  intro i hi hpre
  rcases Nat.eq_zero_or_pos i with hz | hpos
  · rw [hz] at hpre
    simp only [List.drop_zero] at hpre
    exact hne (shaped_pref_eq hp hk hpre).symm
  · obtain ⟨ki, hke, hkc⟩ := shapedTok_spec hk
    obtain ⟨pi, hpe, _⟩ := shapedTok_spec hp
    rcases hdi : List.drop i k with _ | ⟨x, xs⟩
    · have : k.length - i = 0 := by
        have := congrArg List.length hdi
        simpa using this
      omega
    · rw [hdi] at hpre
      obtain ⟨t, ht⟩ := hpre
      rw [hpe] at ht
      simp only [List.cons_append, List.cons.injEq] at ht
      have hxk : x ∈ ki ++ ['>'] := by
        have hx : x ∈ List.drop i k := by rw [hdi]; exact List.mem_cons_self x xs
        have : List.drop i k = List.drop (i - 1) (ki ++ ['>']) := by
          rw [hke]
          rcases Nat.exists_eq_add_of_lt hpos with ⟨j, hj⟩
          have hi1 : i = j + 1 := by omega
          subst hi1
          simp [List.drop_succ_cons]
        rw [this] at hx
        exact List.drop_subset _ _ hx
      rcases List.mem_append.mp hxk with hxi | hxg
      · exact (hkc x hxi).1 ht.1.symm
      · simp only [List.mem_singleton] at hxg
        rw [hxg] at ht
        exact absurd ht.1.symm (by decide)

theorem replaceAll_tok {pat k : List Char} (rep rest : List Char)
    (hp : shapedTokB pat = true) (hk : shapedTokB k = true) :
    replaceAll pat rep (k ++ rest) =
      (if k = pat then rep else k) ++ replaceAll pat rep rest := by
  rcases Decidable.em (k = pat) with he | he
  · rw [if_pos he, he]
    exact replaceAll_head_match rep rest (shaped_ne_nil hp)
  · rw [if_neg he]
    exact replaceAll_pass rep k rest (noStart_inside_shaped hp hk he rest)

/-! ### `deanonymize` as a fold, and the key sort -/

theorem splitJoin_nil (pat rep : List Char) : splitJoin pat rep [] = [] := by
  unfold splitJoin
  rcases Decidable.em (pat = []) with h | h
  · simp [h, interleave]
  · simp [h, replaceAll_nil]

theorem foldl_step_nil (m : Mapping) :
    ∀ ks : List (List Char),
      ks.foldl (fun r k => splitJoin k (getVal m k) r) [] = [] := by
  intro ks
  induction ks with
  | nil => rfl
  | cons k ks ih => simp only [List.foldl_cons, splitJoin_nil]; exact ih

theorem deanonymize_eq_foldl (text : List Char) (m : Mapping) :
    deanonymize text m =
      (sortByLenDesc (m.map Prod.fst)).foldl
        (fun r k => splitJoin k (getVal m k) r) text := by
  unfold deanonymize
  rcases Decidable.em (text = [] ∨ m = []) with h | h
  · rw [if_pos h]
    rcases h with h | h
    · rw [h, foldl_step_nil]
    · rw [h]; rfl
  · rw [if_neg h]

theorem insertDesc_perm (a : List Char) :
    ∀ l : List (List Char), (insertDesc a l).Perm (a :: l) := by
  intro l
  induction l with
  | nil => exact List.Perm.refl _
  | cons b l ih =>
    unfold insertDesc
    rcases Decidable.em (a.length < b.length) with h | h
    · rw [if_pos h]
      exact (ih.cons b).trans (List.Perm.swap a b l)
    · rw [if_neg h]

theorem sortByLenDesc_perm :
    ∀ l : List (List Char), (sortByLenDesc l).Perm l := by
  intro l
  induction l with
  | nil => exact List.Perm.refl _
  | cons a l ih =>
    unfold sortByLenDesc
    exact (insertDesc_perm a (sortByLenDesc l)).trans (List.Perm.cons a ih)

theorem mem_sortByLenDesc {k : List Char} {l : List (List Char)} :
    k ∈ sortByLenDesc l ↔ k ∈ l :=
  (sortByLenDesc_perm l).mem_iff

theorem insertDesc_pairwise {a : List Char} {l : List (List Char)}
    (h : List.Pairwise (fun x y : List Char => y.length ≤ x.length) l) :
    List.Pairwise (fun x y : List Char => y.length ≤ x.length) (insertDesc a l) := by
  induction l with
  | nil => simp [insertDesc]
  | cons b l ih =>
    unfold insertDesc
    rcases Decidable.em (a.length < b.length) with hab | hab
    · rw [if_pos hab]
      rw [List.pairwise_cons] at h
      rw [List.pairwise_cons]
      refine ⟨?_, ih h.2⟩
      intro x hx
      rcases List.mem_cons.mp ((insertDesc_perm a l).mem_iff.mp hx) with hxa | hxl
      · rw [hxa]; omega
      · exact h.1 x hxl
    · rw [if_neg hab]
      rw [List.pairwise_cons]
      refine ⟨?_, h⟩
      intro x hx
      rw [List.pairwise_cons] at h
      rcases List.mem_cons.mp hx with hxb | hxl
      · rw [hxb]; omega
      · have := h.1 x hxl
        omega

theorem sortByLenDesc_pairwise :
    ∀ l : List (List Char),
      List.Pairwise (fun x y : List Char => y.length ≤ x.length) (sortByLenDesc l) := by
  intro l
  induction l with
  | nil => simp [sortByLenDesc]
  | cons a l ih => exact insertDesc_pairwise ih

/-! ### Association-list facts -/

theorem lookup_cons_eq (a k b : List Char) (es : Mapping) :
    List.lookup a ((k, b) :: es) = if a = k then some b else List.lookup a es := by
  rcases Decidable.em (a = k) with h | h
  · simp [List.lookup, h]
  · have hbeq : (a == k) = false := by
      cases hb : a == k
      · rfl
      · exact absurd (by simpa using hb) h
    simp [List.lookup, hbeq, h]

theorem lookup_mem {a v : List Char} :
    ∀ {m : Mapping}, m.lookup a = some v → (a, v) ∈ m := by
  intro m
  induction m with
  | nil => intro h; simp [List.lookup] at h
  | cons kv es ih =>
    intro h
    rcases kv with ⟨k, b⟩
    rw [lookup_cons_eq] at h
    rcases Decidable.em (a = k) with he | he
    · rw [if_pos he] at h
      simp only [Option.some.injEq] at h
      rw [he, h]
      exact List.mem_cons_self _ _
    · rw [if_neg he] at h
      exact List.mem_cons_of_mem _ (ih h)

theorem lookup_eq_of_mem_nodup {a v : List Char} :
    ∀ {m : Mapping}, (a, v) ∈ m → (m.map Prod.fst).Nodup → m.lookup a = some v := by
  intro m
  induction m with
  | nil => intro h _; simp at h
  | cons kv es ih =>
    intro h hnd
    rcases kv with ⟨k, b⟩
    rw [lookup_cons_eq]
    rcases List.mem_cons.mp h with he | he
    · simp only [Prod.mk.injEq] at he
      rw [if_pos he.1, he.2]
    · rcases Decidable.em (a = k) with hak | hak
      · exfalso
        simp only [List.map_cons, List.nodup_cons] at hnd
        exact hnd.1 (by rw [← hak]; exact List.mem_map_of_mem Prod.fst he)
      · rw [if_neg hak]
        simp only [List.map_cons, List.nodup_cons] at hnd
        exact ih he hnd.2

theorem getVal_no_lt {m : Mapping} (hv : ∀ kv ∈ m, '<' ∉ kv.2) (k : List Char) :
    '<' ∉ getVal m k := by
  unfold getVal
  rcases hl : m.lookup k with _ | v
  · simp
  · have := lookup_mem hl
    simpa using hv (k, v) this

/-! ### Chunked texts: alternations of inert pieces and placeholder tokens -/

/-- A chunk of an anonymized text: either an inert `piece` of ordinary text or
a placeholder token `tok`. -/
inductive Chunk where
  | piece : List Char → Chunk
  | tok : List Char → Chunk
deriving DecidableEq

/-- The text represented by a list of chunks. -/
def flattenChunks : List Chunk → List Char
  | [] => []
  | Chunk.piece s :: cs => s ++ flattenChunks cs
  | Chunk.tok k :: cs => k ++ flattenChunks cs

/-- A well-formed chunk: pieces contain no `<` (so no placeholder can begin
inside them), tokens have the placeholder shape. -/
def goodChunkB : Chunk → Bool
  | Chunk.piece s => !s.any (fun c => c == '<')
  | Chunk.tok k => shapedTokB k

theorem goodPiece_no_lt {s : List Char} (h : goodChunkB (Chunk.piece s) = true) :
    '<' ∉ s := by
  simp only [goodChunkB, Bool.not_eq_true', List.any_eq_false, beq_iff_eq] at h
  intro hmem
  exact h '<' hmem rfl

/-- Replace one token by a replacement piece, leaving everything else alone. -/
def replChunkOne (pat rep : List Char) : Chunk → Chunk
  | Chunk.piece s => Chunk.piece s
  | Chunk.tok k => if k = pat then Chunk.piece rep else Chunk.tok k

theorem replaceAll_flatten (pat rep : List Char) (hp : shapedTokB pat = true) :
    ∀ cs : List Chunk, (∀ c ∈ cs, goodChunkB c = true) →
      replaceAll pat rep (flattenChunks cs)
        = flattenChunks (cs.map (replChunkOne pat rep)) := by
  intro cs
  induction cs with
  | nil => intro _; exact replaceAll_nil pat rep
  | cons c cs ih =>
    intro hg
    have hgc : goodChunkB c = true := hg c (List.mem_cons_self _ _)
    have hgs : ∀ x ∈ cs, goodChunkB x = true := fun x hx => hg x (List.mem_cons_of_mem _ hx)
    rcases c with s | k
    · show replaceAll pat rep (s ++ flattenChunks cs) = _
      rw [replaceAll_pass rep s _ (noStart_no_lt hp (goodPiece_no_lt hgc) _), ih hgs]
      rfl
    · show replaceAll pat rep (k ++ flattenChunks cs) = _
      rw [replaceAll_tok rep _ hp hgc, ih hgs]
      rcases Decidable.em (k = pat) with he | he
      · simp only [List.map_cons, replChunkOne, if_pos he]
        rfl
      · simp only [List.map_cons, replChunkOne, if_neg he]
        rfl

/-- Replace every token whose key is in `ks` by its original value from `m`. -/
def replChunkKeys (m : Mapping) (ks : List (List Char)) : Chunk → Chunk
  | Chunk.piece s => Chunk.piece s
  | Chunk.tok k => if k ∈ ks then Chunk.piece (getVal m k) else Chunk.tok k

theorem replChunkKeys_nil (m : Mapping) (c : Chunk) : replChunkKeys m [] c = c := by
  rcases c with s | k
  · rfl
  · simp [replChunkKeys]

theorem replChunkKeys_step (m : Mapping) (k : List Char) (ks : List (List Char)) (c : Chunk) :
    replChunkKeys m ks (replChunkOne k (getVal m k) c) = replChunkKeys m (k :: ks) c := by
  rcases c with s | k'
  · rfl
  · simp only [replChunkOne]
    rcases Decidable.em (k' = k) with he | he
    · rw [if_pos he, he]
      simp [replChunkKeys]
    · rw [if_neg he]
      simp only [replChunkKeys]
      rcases Decidable.em (k' ∈ ks) with hm | hm
      · rw [if_pos hm, if_pos (List.mem_cons_of_mem _ hm)]
      · rw [if_neg hm, if_neg (by
          intro hmm
          rcases List.mem_cons.mp hmm with h1 | h2
          · exact he h1
          · exact hm h2)]

theorem goodChunk_replOne {m : Mapping} (hv : ∀ kv ∈ m, '<' ∉ kv.2) (k : List Char)
    {c : Chunk} (hc : goodChunkB c = true) :
    goodChunkB (replChunkOne k (getVal m k) c) = true := by
  rcases c with s | k'
  · exact hc
  · simp only [replChunkOne]
    rcases Decidable.em (k' = k) with he | he
    · rw [if_pos he]
      simp only [goodChunkB, Bool.not_eq_true', List.any_eq_false, beq_iff_eq]
      intro x hx hxe
      rw [hxe] at hx
      exact getVal_no_lt hv k hx
    · rw [if_neg he]
      exact hc

theorem foldl_replace_chunks (m : Mapping)
    (hk : ∀ k ∈ m.map Prod.fst, shapedTokB k = true)
    (hv : ∀ kv ∈ m, '<' ∉ kv.2) :
    ∀ ks : List (List Char), (∀ k ∈ ks, k ∈ m.map Prod.fst) →
      ∀ cs : List Chunk, (∀ c ∈ cs, goodChunkB c = true) →
        ks.foldl (fun r k => splitJoin k (getVal m k) r) (flattenChunks cs)
          = flattenChunks (cs.map (replChunkKeys m ks)) := by
  intro ks
  induction ks with
  | nil =>
    intro _ cs _
    simp only [List.foldl_nil]
    congr 1
    have : cs.map (replChunkKeys m []) = cs.map id := by
      apply List.map_congr_left
      intro c _
      rw [replChunkKeys_nil]
      rfl
    rw [this, List.map_id]
  | cons k ks ih =>
    intro hks cs hg
    have hkm : k ∈ m.map Prod.fst := hks k (List.mem_cons_self _ _)
    have hkshape : shapedTokB k = true := hk k hkm
    have hkne : k ≠ [] := shaped_ne_nil hkshape
    simp only [List.foldl_cons]
    rw [show splitJoin k (getVal m k) (flattenChunks cs)
        = replaceAll k (getVal m k) (flattenChunks cs) by unfold splitJoin; rw [if_neg hkne]]
    rw [replaceAll_flatten k (getVal m k) hkshape cs hg]
    rw [ih (fun x hx => hks x (List.mem_cons_of_mem _ hx)) _ (by
      intro c hc
      rcases List.mem_map.mp hc with ⟨c₀, hc₀, hmap⟩
      rw [← hmap]
      exact goodChunk_replOne hv k (hg c₀ hc₀))]
    rw [List.map_map]
    apply congrArg
    apply List.map_congr_left
    intro c _
    exact replChunkKeys_step m k ks c

/-- Simultaneous replacement of every complete placeholder token of a chunked
text by its original value: each token is substituted exactly once and
substituted values are never re-scanned. -/
def substituteTokens (m : Mapping) (cs : List Chunk) : List Chunk :=
  cs.map (replChunkKeys m (m.map Prod.fst))

theorem deanonymize_chunks_eq (m : Mapping) (cs : List Chunk)
    (hk : ∀ k ∈ m.map Prod.fst, shapedTokB k = true)
    (hv : ∀ kv ∈ m, '<' ∉ kv.2)
    (hg : ∀ c ∈ cs, goodChunkB c = true) :
    deanonymize (flattenChunks cs) m = flattenChunks (substituteTokens m cs) := by
  rw [deanonymize_eq_foldl]
  rw [foldl_replace_chunks m hk hv (sortByLenDesc (m.map Prod.fst))
    (fun k hk' => mem_sortByLenDesc.mp hk') cs hg]
  unfold substituteTokens
  apply congrArg
  apply List.map_congr_left
  intro c _
  rcases c with s | k'
  · rfl
  · simp only [replChunkKeys]
    rcases Decidable.em (k' ∈ m.map Prod.fst) with hm | hm
    · rw [if_pos hm, if_pos (mem_sortByLenDesc.mpr hm)]
    · rw [if_neg hm, if_neg (fun hc => hm (mem_sortByLenDesc.mp hc))]

/-! ### The placeholder regex `<[A-Z_]+_\d+>` -/

theorem digit_not_type {c : Char} (h : isDigitCh c = true) : isTypeChar c = false := by
  simp only [isDigitCh, Bool.and_eq_true, decide_eq_true_eq] at h
  have h1 : (48 : Nat) ≤ c.toNat := h.1
  have h2 : c.toNat ≤ (57 : Nat) := h.2
  simp only [isTypeChar, Bool.or_eq_false_iff, Bool.and_eq_false_iff, beq_eq_false_iff_ne]
  constructor
  · left
    simp only [decide_eq_false_iff_not]
    intro hc
    have h3 : (65 : Nat) ≤ c.toNat := hc
    omega
  · intro hc
    rw [hc] at h2
    exact absurd h2 (by decide)

/-- Match of the regex `<[A-Z_]+_\d+>` anchored at the start of `l`, returning
the matched token.  Backtracking over `[A-Z_]+` is equivalent to taking the
maximal run of type characters and requiring it to end with the literal `_`
(the following character is a digit, which is not a type character, so the run
cannot stop earlier or later); likewise `\d+` is the maximal digit run. -/
def matchTokenAt (l : List Char) : Option (List Char) :=
  match l with
  | '<' :: rest =>
    let r := rest.takeWhile isTypeChar
    let rest2 := rest.dropWhile isTypeChar
    let d := rest2.takeWhile isDigitCh
    let rest3 := rest2.dropWhile isDigitCh
    if 2 ≤ r.length ∧ r.getLast? = some '_' ∧ d ≠ [] ∧ rest3.head? = some '>'
    then some ('<' :: (r ++ d ++ ['>'])) else none
  | _ => none

/-- Translation of `containsPlaceholders`: the regex test
`/<[A-Z_]+_\d+>/.test(text)` succeeds exactly when a match starts at some
position of the text. -/
def containsPlaceholders (text : List Char) : Bool :=
  text.tails.any (fun t => (matchTokenAt t).isSome)

/-- Fuel-driven worker for `scanMatches`; each step consumes at least one
character, so `text.length` fuel suffices. -/
def scanMatchesF : Nat → List Char → List (List Char)
  | 0, _ => []
  | _ + 1, [] => []
  | fuel + 1, c :: cs =>
    match matchTokenAt (c :: cs) with
    | some tok => tok :: scanMatchesF fuel (List.drop tok.length (c :: cs))
    | none => scanMatchesF fuel cs

/-- `text.match(/<[A-Z_]+_\d+>/g)`: the leftmost non-overlapping matches of
the placeholder regex, scanning left to right. -/
def scanMatches (text : List Char) : List (List Char) := scanMatchesF text.length text

/-- First-occurrence deduplication, as `[...new Set(matches)]` produces. -/
def dedupFirstAux (seen : List (List Char)) : List (List Char) → List (List Char)
  | [] => []
  | a :: l => if a ∈ seen then dedupFirstAux seen l else a :: dedupFirstAux (a :: seen) l

/-- Translation of `extractPlaceholders`: all regex matches, deduplicated
keeping first occurrences (`[...new Set(text.match(/<[A-Z_]+_\d+>/g) ?? [])]`). -/
def extractPlaceholders (text : List Char) : List (List Char) :=
  dedupFirstAux [] (scanMatches text)

/-- The placeholder token grammar with the digit part read as the source
regex does: `<`, a non-empty run of uppercase letters or underscores, `_`, a
non-empty digit run, `>`. -/
def PlaceholderGrammar (s : List Char) : Prop :=
  ∃ w d, w ≠ [] ∧ (∀ c ∈ w, isTypeChar c = true) ∧ d ≠ [] ∧ (∀ c ∈ d, isDigitCh c = true) ∧
    s = '<' :: (w ++ '_' :: (d ++ ['>']))

theorem takeWhile_all_append (p : Char → Bool) {a : List Char} (b : List Char)
    (h : ∀ x ∈ a, p x = true) :
    List.takeWhile p (a ++ b) = a ++ List.takeWhile p b := by
  induction a with
  | nil => simp
  | cons x xs ih =>
    simp only [List.cons_append, List.takeWhile_cons, h x (List.mem_cons_self x xs), if_pos]
    rw [ih (fun y hy => h y (List.mem_cons_of_mem x hy))]

theorem dropWhile_all_append (p : Char → Bool) {a : List Char} (b : List Char)
    (h : ∀ x ∈ a, p x = true) :
    List.dropWhile p (a ++ b) = List.dropWhile p b := by
  induction a with
  | nil => simp
  | cons x xs ih =>
    simp only [List.cons_append, List.dropWhile_cons, h x (List.mem_cons_self x xs), if_pos]
    exact ih (fun y hy => h y (List.mem_cons_of_mem x hy))

theorem takeWhile_cons_neg (p : Char → Bool) {x : Char} (b : List Char)
    (h : p x = false) : List.takeWhile p (x :: b) = [] := by
  simp [List.takeWhile_cons, h]

theorem dropWhile_cons_neg (p : Char → Bool) {x : Char} (b : List Char)
    (h : p x = false) : List.dropWhile p (x :: b) = x :: b := by
  simp [List.dropWhile_cons, h]

/-- Structure of a successful anchored match: the token is a grammar token
and a prefix of the scanned text. -/
theorem matchTokenAt_spec {l tok : List Char} (h : matchTokenAt l = some tok) :
    PlaceholderGrammar tok ∧ ∃ rest', l = tok ++ rest' := by
  rcases l with _ | ⟨c, rest⟩
  · simp [matchTokenAt] at h
  · have hc : c = '<' := by
      by_contra hne
      rw [show matchTokenAt (c :: rest) = none by
        unfold matchTokenAt
        split
        next heq => rw [List.cons.injEq] at heq; exact absurd heq.1 hne
        next => rfl] at h
      exact Option.noConfusion h
    subst hc
    rw [show matchTokenAt ('<' :: rest) =
      (if 2 ≤ (rest.takeWhile isTypeChar).length ∧
          (rest.takeWhile isTypeChar).getLast? = some '_' ∧
          (rest.dropWhile isTypeChar).takeWhile isDigitCh ≠ [] ∧
          ((rest.dropWhile isTypeChar).dropWhile isDigitCh).head? = some '>'
        then some ('<' :: (rest.takeWhile isTypeChar ++
            (rest.dropWhile isTypeChar).takeWhile isDigitCh ++ ['>']))
        else none) from rfl] at h
    rcases Decidable.em (2 ≤ (rest.takeWhile isTypeChar).length ∧
        (rest.takeWhile isTypeChar).getLast? = some '_' ∧
        (rest.dropWhile isTypeChar).takeWhile isDigitCh ≠ [] ∧
        ((rest.dropWhile isTypeChar).dropWhile isDigitCh).head? = some '>') with hcond | hcond
    · rw [if_pos hcond] at h
      simp only [Option.some.injEq] at h
      obtain ⟨hlen, hlast, hdne, hhead⟩ := hcond
      set r := rest.takeWhile isTypeChar with hr
      set rest2 := rest.dropWhile isTypeChar with hrest2
      set d := rest2.takeWhile isDigitCh with hd
      set rest3 := rest2.dropWhile isDigitCh with hrest3
      have hrne : r ≠ [] := by
        intro he; rw [he] at hlen; simp at hlen
      have hrsplit : r = r.dropLast ++ ['_'] := by
        have h1 := List.dropLast_append_getLast hrne
        rw [List.getLast?_eq_getLast r hrne] at hlast
        simp only [Option.some.injEq] at hlast
        rw [hlast] at h1
        exact h1.symm
      have hwne : r.dropLast ≠ [] := by
        intro he
        rw [he] at hrsplit
        rw [hrsplit] at hlen
        simp at hlen
      have hwtype : ∀ x ∈ r.dropLast, isTypeChar x = true := by
        intro x hx
        exact List.mem_takeWhile_imp (List.dropLast_subset r hx)
      have hdd : ∀ x ∈ d, isDigitCh x = true := fun x hx => List.mem_takeWhile_imp hx
      have hrest3' : ∃ tail, rest3 = '>' :: tail := by
        rcases hrest3e : rest3 with _ | ⟨y, ys⟩
        · rw [hrest3e] at hhead; simp at hhead
        · rw [hrest3e] at hhead
          simp only [List.head?_cons, Option.some.injEq] at hhead
          exact ⟨ys, by rw [hhead]⟩
      obtain ⟨tail, htail⟩ := hrest3'
      constructor
      · refine ⟨r.dropLast, d, hwne, hwtype, hdne, hdd, ?_⟩
        rw [← h]
        congr 1
        rw [hrsplit]
        simp
      · refine ⟨tail, ?_⟩
        rw [← h]
        have : rest = r ++ rest2 := (List.takeWhile_append_dropWhile ..).symm
        rw [this]
        have : rest2 = d ++ rest3 := (List.takeWhile_append_dropWhile ..).symm
        rw [this, htail]
        simp
    · rw [if_neg hcond] at h
      exact Option.noConfusion h

/-- Conversely, an anchored grammar token is matched (with exactly that token
as the match). -/
theorem matchTokenAt_of_grammar {s : List Char} (hg : PlaceholderGrammar s) (suffix : List Char) :
    matchTokenAt (s ++ suffix) = some s := by
  obtain ⟨w, d, hwne, hwt, hdne, hdd, hs⟩ := hg
  rcases d with _ | ⟨d0, ds⟩
  · exact absurd rfl hdne
  · rw [hs]
    have hshape : ('<' :: (w ++ '_' :: (d0 :: ds ++ ['>']))) ++ suffix
        = '<' :: ((w ++ ['_']) ++ (d0 :: ds ++ ('>' :: suffix))) := by
      simp
    rw [hshape]
    have hwt' : ∀ x ∈ w ++ ['_'], isTypeChar x = true := by
      intro x hx
      rcases List.mem_append.mp hx with h1 | h1
      · exact hwt x h1
      · simp only [List.mem_singleton] at h1
        rw [h1]; rfl
    have htake : ((w ++ ['_']) ++ (d0 :: ds ++ ('>' :: suffix))).takeWhile isTypeChar
        = w ++ ['_'] := by
      rw [takeWhile_all_append isTypeChar _ hwt']
      rw [List.cons_append]
      rw [takeWhile_cons_neg isTypeChar _ (digit_not_type (hdd d0 (List.mem_cons_self ..)))]
      simp
    have hdrop : ((w ++ ['_']) ++ (d0 :: ds ++ ('>' :: suffix))).dropWhile isTypeChar
        = d0 :: ds ++ ('>' :: suffix) := by
      rw [dropWhile_all_append isTypeChar _ hwt']
      rw [List.cons_append]
      rw [dropWhile_cons_neg isTypeChar _ (digit_not_type (hdd d0 (List.mem_cons_self ..)))]
    have hdd' : ∀ x ∈ d0 :: ds, isDigitCh x = true := hdd
    have hgtd : isDigitCh '>' = false := by decide
    have htaked : (d0 :: ds ++ ('>' :: suffix)).takeWhile isDigitCh = d0 :: ds := by
      rw [show d0 :: ds ++ ('>' :: suffix) = (d0 :: ds) ++ ('>' :: suffix) by simp]
      rw [takeWhile_all_append isDigitCh _ hdd']
      rw [takeWhile_cons_neg isDigitCh _ hgtd]
      simp
    have hdropd : (d0 :: ds ++ ('>' :: suffix)).dropWhile isDigitCh = '>' :: suffix := by
      rw [show d0 :: ds ++ ('>' :: suffix) = (d0 :: ds) ++ ('>' :: suffix) by simp]
      rw [dropWhile_all_append isDigitCh _ hdd']
      rw [dropWhile_cons_neg isDigitCh _ hgtd]
    show matchTokenAt ('<' :: ((w ++ ['_']) ++ (d0 :: ds ++ ('>' :: suffix)))) = _
    rw [show matchTokenAt ('<' :: ((w ++ ['_']) ++ (d0 :: ds ++ ('>' :: suffix)))) =
      (let rest := (w ++ ['_']) ++ (d0 :: ds ++ ('>' :: suffix))
       let r := rest.takeWhile isTypeChar
       let rest2 := rest.dropWhile isTypeChar
       let d := rest2.takeWhile isDigitCh
       let rest3 := rest2.dropWhile isDigitCh
       if 2 ≤ r.length ∧ r.getLast? = some '_' ∧ d ≠ [] ∧ rest3.head? = some '>'
       then some ('<' :: (r ++ d ++ ['>'])) else none) from rfl]
    simp only [htake, hdrop, htaked, hdropd]
    rw [if_pos (by
      refine ⟨?_, ?_, ?_, ?_⟩
      · rcases w with _ | ⟨w0, ws⟩
        · exact absurd rfl hwne
        · simp
      · simp
      · simp
      · simp)]
    congr 1
    simp

theorem grammar_infix_contains {k t : List Char} (hg : PlaceholderGrammar k)
    (hi : k <:+: t) : containsPlaceholders t = true := by
  obtain ⟨p, q, hpq⟩ := hi
  have hsuf : (k ++ q) <:+ t := ⟨p, by rw [← hpq]; simp⟩
  unfold containsPlaceholders
  rw [List.any_eq_true]
  refine ⟨k ++ q, (List.mem_tails _ _).mpr hsuf, ?_⟩
  rw [matchTokenAt_of_grammar hg q]
  rfl

theorem contains_iff_grammar_sub (t : List Char) :
    containsPlaceholders t = true ↔ ∃ s, PlaceholderGrammar s ∧ s <:+: t := by
  constructor
  · intro h
    unfold containsPlaceholders at h
    rw [List.any_eq_true] at h
    obtain ⟨x, hx, hsome⟩ := h
    obtain ⟨p, hp⟩ := (List.mem_tails _ _).mp hx
    rcases hmt : matchTokenAt x with _ | tok
    · rw [hmt] at hsome; simp at hsome
    · obtain ⟨hg, rest', hrest⟩ := matchTokenAt_spec hmt
      refine ⟨tok, hg, p, rest', ?_⟩
      rw [← hp, hrest]
      simp
  · rintro ⟨s, hg, hi⟩
    exact grammar_infix_contains hg hi

theorem scanMatchesF_fuel :
    ∀ f₁ f₂ l, l.length ≤ f₁ → l.length ≤ f₂ → scanMatchesF f₁ l = scanMatchesF f₂ l := by
  intro f₁
  induction f₁ with
  | zero =>
    intro f₂ l h₁ _
    have : l = [] := List.eq_nil_of_length_eq_zero (Nat.le_zero.mp h₁)
    subst this
    cases f₂ <;> rfl
  | succ f ih =>
    intro f₂ l h₁ h₂
    cases l with
    | nil => cases f₂ <;> rfl
    | cons c cs =>
      cases f₂ with
      | zero => simp at h₂
      | succ f' =>
        simp only [scanMatchesF]
        rcases hmt : matchTokenAt (c :: cs) with _ | tok
        · have hc : cs.length ≤ f := by simp at h₁; omega
          have hc' : cs.length ≤ f' := by simp at h₂; omega
          rw [ih f' cs hc hc']
        · obtain ⟨hg, rest', hrest⟩ := matchTokenAt_spec hmt
          have htne : 1 ≤ tok.length := by
            obtain ⟨w, d, _, _, _, _, hs⟩ := hg
            rw [hs]; simp
          have hlen : (List.drop tok.length (c :: cs)).length = cs.length + 1 - tok.length := by
            simp
          have hd : (List.drop tok.length (c :: cs)).length ≤ f := by
            simp only [List.length_cons] at h₁
            omega
          have hd' : (List.drop tok.length (c :: cs)).length ≤ f' := by
            simp only [List.length_cons] at h₂
            omega
          show tok :: scanMatchesF f (List.drop tok.length (c :: cs))
              = tok :: scanMatchesF f' (List.drop tok.length (c :: cs))
          rw [ih f' _ hd hd']

theorem scanMatches_cons_some {c : Char} {cs tok : List Char}
    (h : matchTokenAt (c :: cs) = some tok) :
    scanMatches (c :: cs) = tok :: scanMatches (List.drop tok.length (c :: cs)) := by
  show scanMatchesF (c :: cs).length (c :: cs) = _
  rw [show (c :: cs).length = cs.length + 1 from rfl]
  simp only [scanMatchesF, h]
  congr 1
  apply scanMatchesF_fuel
  · obtain ⟨hg, rest', hrest⟩ := matchTokenAt_spec h
    have htne : 1 ≤ tok.length := by
      obtain ⟨w, d, _, _, _, _, hs⟩ := hg
      rw [hs]; simp
    have : (List.drop tok.length (c :: cs)).length = (c :: cs).length - tok.length := by simp
    simp only [List.length_cons] at this
    omega
  · exact Nat.le_refl _

theorem scanMatches_cons_none {c : Char} {cs : List Char}
    (h : matchTokenAt (c :: cs) = none) :
    scanMatches (c :: cs) = scanMatches cs := by
  show scanMatchesF (c :: cs).length (c :: cs) = _
  rw [show (c :: cs).length = cs.length + 1 from rfl]
  simp only [scanMatchesF, h]
  rfl

theorem scanMatches_spec :
    ∀ n (l : List Char), l.length ≤ n →
      ∀ s ∈ scanMatches l, PlaceholderGrammar s ∧ s <:+: l := by
  intro n
  induction n with
  | zero =>
    intro l hl s hs
    have : l = [] := List.eq_nil_of_length_eq_zero (Nat.le_zero.mp hl)
    subst this
    simp [scanMatches, scanMatchesF] at hs
  | succ n ih =>
    intro l hl s hs
    cases l with
    | nil => simp [scanMatches, scanMatchesF] at hs
    | cons c cs =>
      rcases hmt : matchTokenAt (c :: cs) with _ | tok
      · rw [scanMatches_cons_none hmt] at hs
        have := ih cs (by simp at hl; omega) s hs
        refine ⟨this.1, ?_⟩
        obtain ⟨a, b, hab⟩ := this.2
        exact ⟨c :: a, b, by rw [← hab]; simp⟩
      · rw [scanMatches_cons_some hmt] at hs
        obtain ⟨hg, rest', hrest⟩ := matchTokenAt_spec hmt
        rcases List.mem_cons.mp hs with he | hmem
        · subst he
          exact ⟨hg, [], rest', by rw [hrest]; simp⟩
        · have htne : 1 ≤ tok.length := by
            obtain ⟨w, d, _, _, _, _, hsx⟩ := hg
            rw [hsx]; simp
          have hlen : (List.drop tok.length (c :: cs)).length ≤ n := by
            have : (List.drop tok.length (c :: cs)).length = (c :: cs).length - tok.length := by
              simp
            simp only [List.length_cons] at this hl ⊢
            omega
          have := ih _ hlen s hmem
          refine ⟨this.1, ?_⟩
          obtain ⟨a, b, hab⟩ := this.2
          refine ⟨List.take tok.length (c :: cs) ++ a, b, ?_⟩
          have hassoc : (List.take tok.length (c :: cs) ++ a) ++ s ++ b
              = List.take tok.length (c :: cs) ++ (a ++ s ++ b) := by
            simp [List.append_assoc]
          rw [hassoc, hab, List.take_append_drop]

theorem dedupFirstAux_sub :
    ∀ (l seen : List (List Char)) (x : List Char),
      x ∈ dedupFirstAux seen l → x ∈ l ∧ x ∉ seen := by
  intro l
  induction l with
  | nil => intro seen x hx; simp [dedupFirstAux] at hx
  | cons a l ih =>
    intro seen x hx
    unfold dedupFirstAux at hx
    rcases Decidable.em (a ∈ seen) with hmem | hmem
    · rw [if_pos hmem] at hx
      have := ih seen x hx
      exact ⟨List.mem_cons_of_mem a this.1, this.2⟩
    · rw [if_neg hmem] at hx
      rcases List.mem_cons.mp hx with he | hx'
      · subst he
        exact ⟨List.mem_cons_self _ _, hmem⟩
      · have := ih (a :: seen) x hx'
        refine ⟨List.mem_cons_of_mem a this.1, ?_⟩
        intro hc
        exact this.2 (List.mem_cons_of_mem a hc)

theorem mem_dedupFirstAux :
    ∀ (l seen : List (List Char)) (x : List Char),
      x ∈ l → x ∉ seen → x ∈ dedupFirstAux seen l := by
  intro l
  induction l with
  | nil => intro seen x hx _; simp at hx
  | cons a l ih =>
    intro seen x hx hns
    unfold dedupFirstAux
    rcases Decidable.em (a ∈ seen) with hmem | hmem
    · rw [if_pos hmem]
      rcases List.mem_cons.mp hx with he | hx'
      · subst he; exact absurd hmem hns
      · exact ih seen x hx' hns
    · rw [if_neg hmem]
      rcases Decidable.em (x = a) with he | he
      · rw [he]; exact List.mem_cons_self _ _
      · rcases List.mem_cons.mp hx with he' | hx'
        · exact absurd he' he
        · refine List.mem_cons_of_mem a (ih (a :: seen) x hx' ?_)
          intro hc
          rcases List.mem_cons.mp hc with h1 | h2
          · exact he h1
          · exact hns h2

theorem dedupFirstAux_nodup :
    ∀ (l seen : List (List Char)), (dedupFirstAux seen l).Nodup := by
  intro l
  induction l with
  | nil => intro seen; simp [dedupFirstAux]
  | cons a l ih =>
    intro seen
    unfold dedupFirstAux
    rcases Decidable.em (a ∈ seen) with hmem | hmem
    · rw [if_pos hmem]; exact ih seen
    · rw [if_neg hmem]
      rw [List.nodup_cons]
      refine ⟨?_, ih (a :: seen)⟩
      intro hc
      exact (dedupFirstAux_sub l (a :: seen) a hc).2 (List.mem_cons_self _ _)

/-! ### The anonymizer, modelled from the specification

The anonymizer itself is not among the translated sources (only the
deanonymizer is); the definitions below follow §4.2 of the specification. -/

/-- Modelled from the spec: a detected entity span over the source text, with
an entity type name and half-open `[start, stop)` offsets (the spec's `end`
field is called `stop` here, `end` being reserved). The `text` field is the
substring at those offsets and is recovered by `extractSub`; confidence plays
no role in anonymization. -/
structure Span where
  typ : List Char
  start : Nat
  stop : Nat
deriving DecidableEq

/-- The substring of `T` at half-open offsets `[a, b)`. -/
def extractSub (T : List Char) (a b : Nat) : List Char := (T.drop a).take (b - a)

/-- Stable insertion by span start ascending. -/
def insertByStart (sp : Span) : List Span → List Span
  | [] => [sp]
  | b :: l => if b.start ≤ sp.start then b :: insertByStart sp l else sp :: b :: l

/-- Modelled from the spec: sort spans by `start` ascending (stably, so the
first-detected span wins ties). -/
def sortByStart : List Span → List Span
  | [] => []
  | sp :: l => insertByStart sp (sortByStart l)

/-- Modelled from the spec: drop a span whose start falls inside a previously
accepted span's range (first-detected-wins); `pos` is the end of the last
accepted span. -/
def acceptSpans : Nat → List Span → List Span
  | _, [] => []
  | pos, sp :: rest =>
    if sp.start < pos then acceptSpans pos rest else sp :: acceptSpans sp.stop rest

/-- Decimal digits of a positive `n`, most significant first (fuel-driven). -/
def natReprAux : Nat → Nat → List Char
  | 0, _ => []
  | fuel + 1, n => if n = 0 then [] else natReprAux fuel (n / 10) ++ [Nat.digitChar (n % 10)]

/-- Decimal representation of a natural number. -/
def natRepr (n : Nat) : List Char := if n = 0 then ['0'] else natReprAux n n

/-- The placeholder token `<TYP_n>`. -/
def keyFor (typ : List Char) (n : Nat) : List Char :=
  '<' :: (typ ++ '_' :: (natRepr n ++ ['>']))

/-- One minted placeholder: entity type, original value, placeholder token. -/
abbrev Entry := List Char × List Char × List Char

/-- Look up the placeholder already minted for a (type, value) pair, for the
spec's dedup-by-exact-text-and-type rule. -/
def findKey (typ v : List Char) : List Entry → Option (List Char)
  | [] => none
  | e :: es => if e.1 = typ ∧ e.2.1 = v then some e.2.2 else findKey typ v es

/-- The per-entity-type counter: how many placeholders of this type exist. -/
def countType (typ : List Char) (es : List Entry) : Nat :=
  (es.filter (fun e => decide (e.1 = typ))).length

/-- An accepted span as placed in the output: offsets plus assigned token. -/
structure SpanItem where
  s : Nat
  e : Nat
  key : List Char
deriving DecidableEq

/-- Modelled from the spec: the left-to-right rewrite over the accepted
spans, reusing a placeholder for a repeated (type, value) pair and otherwise
minting `<TYPE_N>` with `N` the per-type counter plus one. -/
def anonGo (T : List Char) : List Span → List Entry → List SpanItem × List Entry
  | [], es => ([], es)
  | sp :: rest, es =>
    let v := extractSub T sp.start sp.stop
    match findKey sp.typ v es with
    | some k =>
      let r := anonGo T rest es
      (⟨sp.start, sp.stop, k⟩ :: r.1, r.2)
    | none =>
      let k := keyFor sp.typ (countType sp.typ es + 1)
      let r := anonGo T rest (es ++ [(sp.typ, v, k)])
      (⟨sp.start, sp.stop, k⟩ :: r.1, r.2)

/-- The anonymized text: source text between the accepted spans, placeholder
tokens in place of the spans. -/
def renderItems (T : List Char) : Nat → List SpanItem → List Char
  | pos, [] => extractSub T pos T.length
  | pos, it :: rest => extractSub T pos it.s ++ (it.key ++ renderItems T it.e rest)

/-- Modelled from the spec: `anonymize` sorts the detected spans by start
ascending, drops overlapping later spans, rewrites left to right emitting
`<TYPE_N>` tokens resolved by the dedup rule, and returns the anonymized text
together with the placeholder-to-original mapping. -/
def anonymize (T : List Char) (spans : List Span) : List Char × Mapping :=
  let acc := acceptSpans 0 (sortByStart spans)
  let r := anonGo T acc []
  (renderItems T 0 r.1, r.2.map (fun e => (e.2.2, e.2.1)))

/-! ### Decimal representation lemmas -/

/-- Numeric value of a digit string (proof-side inverse of `natRepr`). -/
def charVal (c : Char) : Nat := c.toNat - 48

/-- Read a decimal digit string back to a number. -/
def readNat (l : List Char) : Nat := l.foldl (fun a c => a * 10 + charVal c) 0

theorem digitChar_isDigit {d : Nat} (h : d < 10) : isDigitCh (Nat.digitChar d) = true := by
  interval_cases d <;> decide

theorem charVal_digitChar {d : Nat} (h : d < 10) : charVal (Nat.digitChar d) = d := by
  interval_cases d <;> decide

theorem natReprAux_digits :
    ∀ (fuel n : Nat), ∀ c ∈ natReprAux fuel n, isDigitCh c = true := by
  intro fuel
  induction fuel with
  | zero => intro n c hc; simp [natReprAux] at hc
  | succ f ih =>
    intro n c hc
    unfold natReprAux at hc
    rcases Decidable.em (n = 0) with h0 | h0
    · rw [if_pos h0] at hc; simp at hc
    · rw [if_neg h0] at hc
      rcases List.mem_append.mp hc with h1 | h1
      · exact ih (n / 10) c h1
      · simp only [List.mem_singleton] at h1
        rw [h1]
        exact digitChar_isDigit (Nat.mod_lt n (by norm_num))

theorem natRepr_digits (n : Nat) : ∀ c ∈ natRepr n, isDigitCh c = true := by
  unfold natRepr
  rcases Decidable.em (n = 0) with h0 | h0
  · rw [if_pos h0]
    intro c hc
    simp only [List.mem_singleton] at hc
    rw [hc]; decide
  · rw [if_neg h0]
    exact natReprAux_digits n n

theorem foldl_concat_step (f : Nat → Char → Nat) (init : Nat) (xs : List Char) (c : Char) :
    List.foldl f init (xs ++ [c]) = f (List.foldl f init xs) c := by
  rw [List.foldl_append]
  rfl

theorem natReprAux_read :
    ∀ (fuel n : Nat), n ≤ fuel → readNat (natReprAux fuel n) = n := by
  intro fuel
  induction fuel with
  | zero =>
    intro n hn
    have : n = 0 := Nat.le_zero.mp hn
    subst this
    rfl
  | succ f ih =>
    intro n hn
    unfold natReprAux
    rcases Decidable.em (n = 0) with h0 | h0
    · rw [if_pos h0, h0]; rfl
    · rw [if_neg h0]
      unfold readNat
      rw [foldl_concat_step]
      have h10 : n / 10 ≤ f := by
        have : n / 10 < n := Nat.div_lt_self (Nat.pos_of_ne_zero h0) (by norm_num)
        omega
      have := ih (n / 10) h10
      unfold readNat at this
      rw [this, charVal_digitChar (Nat.mod_lt n (by norm_num))]
      omega

theorem natRepr_read (n : Nat) : readNat (natRepr n) = n := by
  unfold natRepr
  rcases Decidable.em (n = 0) with h0 | h0
  · rw [if_pos h0, h0]; decide
  · rw [if_neg h0]
    exact natReprAux_read n n (Nat.le_refl n)

theorem natRepr_inj {a b : Nat} (h : natRepr a = natRepr b) : a = b := by
  have ha := natRepr_read a
  have hb := natRepr_read b
  rw [h] at ha
  rw [hb] at ha
  exact ha.symm

theorem keyFor_inj {t₁ t₂ : List Char} {n₁ n₂ : Nat}
    (h : keyFor t₁ n₁ = keyFor t₂ n₂) : t₁ = t₂ ∧ n₁ = n₂ := by
  unfold keyFor at h
  rw [List.cons.injEq] at h
  have hmidg : (t₁ ++ '_' :: natRepr n₁) ++ ['>'] = (t₂ ++ '_' :: natRepr n₂) ++ ['>'] := by
    have h2 := h.2
    rw [show t₁ ++ '_' :: (natRepr n₁ ++ ['>']) = (t₁ ++ '_' :: natRepr n₁) ++ ['>'] by simp,
        show t₂ ++ '_' :: (natRepr n₂ ++ ['>']) = (t₂ ++ '_' :: natRepr n₂) ++ ['>'] by simp] at h2
    exact h2
  have hmid : t₁ ++ '_' :: natRepr n₁ = t₂ ++ '_' :: natRepr n₂ :=
    (List.append_inj' hmidg rfl).1
  have hrev : (natRepr n₁).reverse ++ '_' :: t₁.reverse
      = (natRepr n₂).reverse ++ '_' :: t₂.reverse := by
    have := congrArg List.reverse hmid
    simpa [List.reverse_append] using this
  have hud : isDigitCh '_' = false := by decide
  have htw : ∀ (r t : List Char), (∀ c ∈ r, isDigitCh c = true) →
      List.takeWhile isDigitCh (r.reverse ++ '_' :: t.reverse) = r.reverse := by
    intro r t hr
    rw [takeWhile_all_append isDigitCh _ (fun x hx => hr x (List.mem_reverse.mp hx))]
    rw [takeWhile_cons_neg isDigitCh _ hud]
    simp
  have htw1 := htw (natRepr n₁) t₁ (natRepr_digits n₁)
  have htw2 := htw (natRepr n₂) t₂ (natRepr_digits n₂)
  have hreq : (natRepr n₁).reverse = (natRepr n₂).reverse := by
    rw [← htw1, ← htw2, hrev]
  have hr : natRepr n₁ = natRepr n₂ := by
    have := congrArg List.reverse hreq
    simpa using this
  have hn : n₁ = n₂ := natRepr_inj hr
  refine ⟨?_, hn⟩
  rw [hr] at hmid
  have hlen : ('_' :: natRepr n₂).length = ('_' :: natRepr n₂).length := rfl
  have := List.append_inj' (by simpa using hmid) hlen
  exact this.1

/-! ### Substring and chain lemmas -/

theorem extractSub_infra (T : List Char) (a b : Nat) : extractSub T a b <:+: T := by
  unfold extractSub
  refine ⟨List.take a T, List.drop (b - a) (List.drop a T), ?_⟩
  rw [List.append_assoc, List.take_append_drop, List.take_append_drop]

theorem extractSub_append {T : List Char} {a b c : Nat} (hab : a ≤ b) (hbc : b ≤ c) :
    extractSub T a b ++ extractSub T b c = extractSub T a c := by
  unfold extractSub
  have hdd : List.drop b T = List.drop (b - a) (List.drop a T) := by
    rw [List.drop_drop]
    congr 1
    omega
  rw [hdd]
  have := (List.take_add (List.drop a T) (b - a) (c - b)).symm
  rw [show b - a + (c - b) = c - a by omega] at this
  exact this

theorem extractSub_full (T : List Char) : extractSub T 0 T.length = T := by
  unfold extractSub
  simp

/-- Chained placement: each item starts at or after the cursor and ends
before the next begins, inside the text. -/
def ChainOk (T : List Char) : Nat → List SpanItem → Prop
  | pos, [] => pos ≤ T.length
  | pos, it :: rest => pos ≤ it.s ∧ it.s ≤ it.e ∧ ChainOk T it.e rest

theorem chainOk_mono {T : List Char} {q : Nat} :
    ∀ {L : List SpanItem} {p : Nat}, ChainOk T q L → p ≤ q → ChainOk T p L := by
  intro L
  cases L with
  | nil => intro p h hpq; exact Nat.le_trans hpq h
  | cons it rest =>
    intro p h hpq
    exact ⟨Nat.le_trans hpq h.1, h.2.1, h.2.2⟩

theorem chainOk_filter {T : List Char} (p : SpanItem → Bool) :
    ∀ {L : List SpanItem} {pos : Nat}, ChainOk T pos L → ChainOk T pos (L.filter p) := by
  intro L
  induction L with
  | nil => intro pos h; exact h
  | cons it rest ih =>
    intro pos h
    rw [List.filter_cons]
    rcases Decidable.em (p it = true) with hp | hp
    · rw [if_pos hp]
      exact ⟨h.1, h.2.1, ih h.2.2⟩
    · rw [if_neg hp]
      exact chainOk_mono (ih h.2.2) (Nat.le_trans h.1 h.2.1)

theorem render_merge {T : List Char} :
    ∀ {L : List SpanItem} {pos e : Nat}, ChainOk T e L → pos ≤ e →
      extractSub T pos e ++ renderItems T e L = renderItems T pos L := by
  intro L
  cases L with
  | nil =>
    intro pos e h hpe
    show extractSub T pos e ++ extractSub T e T.length = extractSub T pos T.length
    exact extractSub_append hpe h
  | cons it rest =>
    intro pos e h hpe
    show extractSub T pos e ++ (extractSub T e it.s ++ (it.key ++ renderItems T it.e rest)) = _
    rw [← List.append_assoc, extractSub_append hpe h.1]
    rfl

/-! ### Well-formed entry lists -/

theorem shapedTokB_intro {inner : List Char}
    (h : ∀ c ∈ inner, c ≠ '<' ∧ c ≠ '>') :
    shapedTokB ('<' :: (inner ++ ['>'])) = true := by
  have h1 : ((inner ++ ['>']).isEmpty) = false := by simp
  have h2 : (inner ++ ['>']).getLast? = some '>' := by simp
  have h3 : (inner ++ ['>']).dropLast.all (fun x => !(x == '<') && !(x == '>')) = true := by
    rw [List.dropLast_concat, List.all_eq_true]
    intro x hx
    have := h x hx
    simp only [Bool.and_eq_true, Bool.not_eq_true', beq_eq_false_iff_ne]
    exact this
  simp only [shapedTokB, h1, h2, h3]
  simp

theorem digit_ne_angle {c : Char} (h : isDigitCh c = true) : c ≠ '<' ∧ c ≠ '>' := by
  simp only [isDigitCh, Bool.and_eq_true, decide_eq_true_eq] at h
  have h2 : c.toNat ≤ (57 : Nat) := h.2
  constructor
  · intro he
    rw [he] at h2
    exact absurd h2 (by decide)
  · intro he
    rw [he] at h2
    exact absurd h2 (by decide)

theorem keyFor_shaped {typ : List Char} (ht : '<' ∉ typ ∧ '>' ∉ typ) (n : Nat) :
    shapedTokB (keyFor typ n) = true := by
  unfold keyFor
  rw [show typ ++ '_' :: (natRepr n ++ ['>']) = (typ ++ '_' :: natRepr n) ++ ['>'] by simp]
  apply shapedTokB_intro
  intro c hc
  rcases List.mem_append.mp hc with h1 | h1
  · constructor
    · intro he; rw [he] at h1; exact ht.1 h1
    · intro he; rw [he] at h1; exact ht.2 h1
  · rcases List.mem_cons.mp h1 with h2 | h2
    · rw [h2]; exact ⟨by decide, by decide⟩
    · exact digit_ne_angle (natRepr_digits n c h2)

/-- Well-formed entry list: entity types are bracket-free, the keys of the
entries of each type are exactly `<t_1> … <t_count>` in order, and all keys
are distinct. -/
def EntriesWf (es : List Entry) : Prop :=
  (∀ e ∈ es, '<' ∉ e.1 ∧ '>' ∉ e.1) ∧
  (∀ t, ((es.filter (fun e => decide (e.1 = t))).map (fun e => e.2.2))
      = (List.range (countType t es)).map (fun i => keyFor t (i + 1))) ∧
  (es.map (fun e => e.2.2)).Nodup

theorem entriesWf_nil : EntriesWf [] := by
  refine ⟨by simp, ?_, by simp⟩
  intro t
  simp [countType]

theorem entry_key_form {es : List Entry} (hwf : EntriesWf es) {e : Entry} (he : e ∈ es) :
    ∃ i, i < countType e.1 es ∧ e.2.2 = keyFor e.1 (i + 1) := by
  have hmem : e ∈ es.filter (fun x => decide (x.1 = e.1)) :=
    List.mem_filter.mpr ⟨he, by simp⟩
  have hkey : e.2.2 ∈ (es.filter (fun x => decide (x.1 = e.1))).map (fun x => x.2.2) :=
    List.mem_map_of_mem _ hmem
  rw [hwf.2.1 e.1] at hkey
  obtain ⟨i, hi, hk⟩ := List.mem_map.mp hkey
  exact ⟨i, List.mem_range.mp hi, hk.symm⟩

theorem entry_key_shaped {es : List Entry} (hwf : EntriesWf es) {e : Entry} (he : e ∈ es) :
    shapedTokB e.2.2 = true := by
  obtain ⟨i, _, hk⟩ := entry_key_form hwf he
  rw [hk]
  exact keyFor_shaped (hwf.1 e he) (i + 1)

theorem findKey_mem {typ v : List Char} :
    ∀ {es : List Entry} {k : List Char}, findKey typ v es = some k → (typ, v, k) ∈ es := by
  intro es
  induction es with
  | nil => intro k h; simp [findKey] at h
  | cons e es ih =>
    intro k h
    unfold findKey at h
    rcases Decidable.em (e.1 = typ ∧ e.2.1 = v) with hc | hc
    · rw [if_pos hc] at h
      simp only [Option.some.injEq] at h
      have : e = (typ, v, k) := by
        rcases e with ⟨a, b, c⟩
        simp only at hc h
        rw [Prod.mk.injEq, Prod.mk.injEq]
        exact ⟨hc.1, hc.2, h⟩
      rw [← this]
      exact List.mem_cons_self _ _
    · rw [if_neg hc] at h
      exact List.mem_cons_of_mem _ (ih h)

theorem countType_append (t : List Char) (es : List Entry) (e : Entry) :
    countType t (es ++ [e]) = countType t es + (if e.1 = t then 1 else 0) := by
  unfold countType
  rw [List.filter_append]
  rcases Decidable.em (e.1 = t) with hc | hc
  · rw [if_pos hc]
    simp [hc]
  · rw [if_neg hc]
    simp [hc]

theorem entriesWf_append {es : List Entry} (hwf : EntriesWf es)
    {typ v : List Char} (ht : '<' ∉ typ ∧ '>' ∉ typ) :
    EntriesWf (es ++ [(typ, v, keyFor typ (countType typ es + 1))]) := by
  set k := keyFor typ (countType typ es + 1) with hk
  refine ⟨?_, ?_, ?_⟩
  · intro e he
    rcases List.mem_append.mp he with h1 | h1
    · exact hwf.1 e h1
    · simp only [List.mem_singleton] at h1
      rw [h1]
      exact ht
  · intro t
    rw [countType_append]
    rcases Decidable.em (typ = t) with hc | hc
    · subst hc
      rw [List.filter_append]
      rw [show List.filter (fun e => decide (e.1 = typ)) [((typ, v, k) : Entry)]
          = [((typ, v, k) : Entry)] by simp]
      rw [List.map_append, hwf.2.1 typ]
      rw [if_pos rfl]
      rw [List.range_succ, List.map_append]
      simp [hk]
    · rw [List.filter_append]
      have he1 : ¬ (((typ, v, k) : Entry).1 = t) := hc
      rw [show List.filter (fun e => decide (e.1 = t)) [((typ, v, k) : Entry)]
          = [] by simp [he1]]
      rw [if_neg he1]
      simp only [List.append_nil, Nat.add_zero]
      exact hwf.2.1 t
  · rw [List.map_append]
    simp only [List.map_cons, List.map_nil]
    rw [List.nodup_append]
    refine ⟨hwf.2.2, List.nodup_singleton _, ?_⟩
    intro x hx hx1
    simp only [List.mem_singleton] at hx1
    obtain ⟨e, he, hek⟩ := List.mem_map.mp hx
    obtain ⟨i, hi, hif⟩ := entry_key_form hwf he
    rw [hx1, hif] at hek
    have := keyFor_inj hek
    rw [this.1] at hi
    omega

/-! ### Sequential replacement over a rendered text -/

theorem inf_of_pref_drop {pat l : List Char} {i : Nat} (h : pat <+: List.drop i l) :
    pat <:+: l := by
  obtain ⟨u, hu⟩ := h
  refine ⟨List.take i l, u, ?_⟩
  rw [List.append_assoc, hu, List.take_append_drop]

theorem shaped_drop_head {pat : List Char} (hp : shapedTokB pat = true) {j : Nat}
    (hj : 1 ≤ j) {c : Char} {tl : List Char} (h : List.drop j pat = c :: tl) : c ≠ '<' := by
  obtain ⟨pi, hpe, hpc⟩ := shapedTok_spec hp
  have hc : c ∈ List.drop j pat := by rw [h]; exact List.mem_cons_self c tl
  have hdd : List.drop j pat = List.drop (j - 1) (pi ++ ['>']) := by
    rw [hpe]
    rcases Nat.exists_eq_add_of_le hj with ⟨j', hj'⟩
    rw [hj']
    rw [show 1 + j' = j' + 1 by omega]
    rw [List.drop_succ_cons]
    simp
  rw [hdd] at hc
  have hc' : c ∈ pi ++ ['>'] := List.drop_subset _ _ hc
  rcases List.mem_append.mp hc' with h1 | h1
  · exact (hpc c h1).1
  · simp only [List.mem_singleton] at h1
    rw [h1]
    decide

theorem replaceAll_render {T pat : List Char} (rep : List Char)
    (hp : shapedTokB pat = true) (hni : ¬ pat <:+: T) :
    ∀ (items : List SpanItem) (pos : Nat), ChainOk T pos items →
      (∀ it ∈ items, shapedTokB it.key = true) →
      (∀ it ∈ items, it.key = pat → extractSub T it.s it.e = rep) →
      replaceAll pat rep (renderItems T pos items)
        = renderItems T pos (items.filter (fun it => decide (¬ it.key = pat))) := by
  intro items
  induction items with
  | nil =>
    intro pos _ _ _
    show replaceAll pat rep (extractSub T pos T.length) = renderItems T pos []
    rw [replaceAll_no_occurrence rep _
      (fun hc => hni (hc.trans (extractSub_infra T pos T.length)))]
    rfl
  | cons it rest ih =>
    intro pos hch hsh hrep
    obtain ⟨hps, hse, hchr⟩ := hch
    have hkey : shapedTokB it.key = true := hsh it (List.mem_cons_self _ _)
    have hshr : ∀ x ∈ rest, shapedTokB x.key = true :=
      fun x hx => hsh x (List.mem_cons_of_mem _ hx)
    have hrepr : ∀ x ∈ rest, x.key = pat → extractSub T x.s x.e = rep :=
      fun x hx => hrep x (List.mem_cons_of_mem _ hx)
    have hnsA : NoStart pat (extractSub T pos it.s) (it.key ++ renderItems T it.e rest) := by
      intro i hi hpre
      rcases pref_append_cases hpre with h1 | ⟨h2, h3⟩
      · exact hni ((inf_of_pref_drop h1).trans (extractSub_infra T pos it.s))
      · have halen : 1 ≤ (List.drop i (extractSub T pos it.s)).length := by
          simp only [List.length_drop]
          omega
        have hle : (List.drop i (extractSub T pos it.s)).length ≤ pat.length := by
          obtain ⟨w, hw⟩ := h2
          have := congrArg List.length hw
          simp only [List.length_append] at this
          omega
        rcases Decidable.em ((List.drop i (extractSub T pos it.s)).length = pat.length)
          with heq | hne2
        · obtain ⟨w, hw⟩ := h2
          have hwnil : w = [] := by
            have := congrArg List.length hw
            simp only [List.length_append] at this
            have : w.length = 0 := by omega
            exact List.eq_nil_of_length_eq_zero this
          rw [hwnil, List.append_nil] at hw
          have hinf : pat <:+: extractSub T pos it.s := by
            refine ⟨List.take i (extractSub T pos it.s), [], ?_⟩
            rw [List.append_nil, ← hw, List.take_append_drop]
          exact hni (hinf.trans (extractSub_infra T pos it.s))
        · have hlt : (List.drop i (extractSub T pos it.s)).length < pat.length := by
            omega
          rcases hdp : List.drop (List.drop i (extractSub T pos it.s)).length pat
            with _ | ⟨c, tl⟩
          · have hlen0 := congrArg List.length hdp
            rw [List.length_drop] at hlen0
            simp only [List.length_nil] at hlen0
            omega
          · rw [hdp] at h3
            obtain ⟨ki, hke, _⟩ := shapedTok_spec hkey
            obtain ⟨u, hu⟩ := h3
            rw [hke] at hu
            simp only [List.cons_append, List.cons.injEq] at hu
            exact shaped_drop_head hp halen hdp hu.1
    show replaceAll pat rep
        (extractSub T pos it.s ++ (it.key ++ renderItems T it.e rest)) = _
    rw [replaceAll_pass rep _ _ hnsA]
    rcases Decidable.em (it.key = pat) with hkp | hkp
    · rw [hkp]
      rw [replaceAll_head_match rep _ (shaped_ne_nil hp)]
      rw [ih it.e hchr hshr hrepr]
      rw [List.filter_cons]
      rw [if_neg (by simp [hkp])]
      have hrepv : rep = extractSub T it.s it.e := (hrep it (List.mem_cons_self _ _) hkp).symm
      rw [hrepv, ← List.append_assoc, extractSub_append hps hse]
      exact render_merge (chainOk_filter _ hchr) (Nat.le_trans hps hse)
    · rw [replaceAll_pass rep it.key _ (noStart_inside_shaped hp hkey hkp _)]
      rw [ih it.e hchr hshr hrepr]
      rw [List.filter_cons]
      rw [if_pos (by simp [hkp])]
      rfl

theorem foldl_replace_render (T : List Char) (m : Mapping)
    (hni : ∀ k ∈ m.map Prod.fst, ¬ k <:+: T)
    (hsh : ∀ k ∈ m.map Prod.fst, shapedTokB k = true) :
    ∀ (ks : List (List Char)), (∀ k ∈ ks, k ∈ m.map Prod.fst) →
      ∀ (items : List SpanItem) (pos : Nat), ChainOk T pos items →
        (∀ it ∈ items, shapedTokB it.key = true) →
        (∀ it ∈ items, getVal m it.key = extractSub T it.s it.e) →
        ks.foldl (fun r k => splitJoin k (getVal m k) r) (renderItems T pos items)
          = renderItems T pos (items.filter (fun it => decide (it.key ∉ ks))) := by
  intro ks
  induction ks with
  | nil =>
    intro _ items pos _ _ _
    simp only [List.foldl_nil]
    congr 1
    rw [List.filter_eq_self.mpr]
    intro it _
    simp
  | cons k ks ih =>
    intro hks items pos hch hshi hlink
    have hkm : k ∈ m.map Prod.fst := hks k (List.mem_cons_self _ _)
    have hkshape : shapedTokB k = true := hsh k hkm
    simp only [List.foldl_cons]
    rw [show splitJoin k (getVal m k) (renderItems T pos items)
        = replaceAll k (getVal m k) (renderItems T pos items) by
      unfold splitJoin; rw [if_neg (shaped_ne_nil hkshape)]]
    rw [replaceAll_render (getVal m k) hkshape (hni k hkm) items pos hch hshi
      (fun it hit hik => by rw [← hik]; exact (hlink it hit).symm)]
    rw [ih (fun x hx => hks x (List.mem_cons_of_mem _ hx)) _ pos
      (chainOk_filter _ hch)
      (fun it hit => hshi it (List.mem_filter.mp hit).1)
      (fun it hit => hlink it (List.mem_filter.mp hit).1)]
    rw [List.filter_filter]
    congr 1
    apply List.filter_congr
    intro it _
    rcases Decidable.em (it.key = k) with h1 | h1
    · simp [h1]
    · rcases Decidable.em (it.key ∈ ks) with h2 | h2
      · simp [h1, h2]
      · simp [h1, h2]

/-! ### Correctness of the modelled anonymizer -/

/-- Chained spans: sorted, non-overlapping, inside the text. -/
def ChainSp (T : List Char) : Nat → List Span → Prop
  | pos, [] => pos ≤ T.length
  | pos, sp :: rest => pos ≤ sp.start ∧ sp.start ≤ sp.stop ∧ ChainSp T sp.stop rest

theorem insertByStart_perm (sp : Span) :
    ∀ l : List Span, (insertByStart sp l).Perm (sp :: l) := by
  intro l
  induction l with
  | nil => exact List.Perm.refl _
  | cons b l ih =>
    unfold insertByStart
    rcases Decidable.em (b.start ≤ sp.start) with h | h
    · rw [if_pos h]
      exact (ih.cons b).trans (List.Perm.swap sp b l)
    · rw [if_neg h]

theorem sortByStart_perm : ∀ l : List Span, (sortByStart l).Perm l := by
  intro l
  induction l with
  | nil => exact List.Perm.refl _
  | cons sp l ih =>
    unfold sortByStart
    exact (insertByStart_perm sp (sortByStart l)).trans (List.Perm.cons sp ih)

theorem acceptSpans_sub :
    ∀ (l : List Span) (pos : Nat), ∀ x ∈ acceptSpans pos l, x ∈ l := by
  intro l
  induction l with
  | nil => intro pos x hx; simp [acceptSpans] at hx
  | cons sp rest ih =>
    intro pos x hx
    unfold acceptSpans at hx
    rcases Decidable.em (sp.start < pos) with h | h
    · rw [if_pos h] at hx
      exact List.mem_cons_of_mem _ (ih pos x hx)
    · rw [if_neg h] at hx
      rcases List.mem_cons.mp hx with h1 | h1
      · rw [h1]; exact List.mem_cons_self _ _
      · exact List.mem_cons_of_mem _ (ih sp.stop x h1)

theorem accept_chain (T : List Char) :
    ∀ (l : List Span) (pos : Nat), pos ≤ T.length →
      (∀ sp ∈ l, sp.start < sp.stop ∧ sp.stop ≤ T.length) →
      ChainSp T pos (acceptSpans pos l) := by
  intro l
  induction l with
  | nil => intro pos hpos _; exact hpos
  | cons sp rest ih =>
    intro pos hpos hv
    unfold acceptSpans
    rcases Decidable.em (sp.start < pos) with h | h
    · rw [if_pos h]
      exact ih pos hpos (fun x hx => hv x (List.mem_cons_of_mem _ hx))
    · rw [if_neg h]
      have hsp := hv sp (List.mem_cons_self _ _)
      exact ⟨Nat.le_of_not_lt h, Nat.le_of_lt hsp.1,
        ih sp.stop hsp.2 (fun x hx => hv x (List.mem_cons_of_mem _ hx))⟩

theorem anonGo_chain (T : List Char) :
    ∀ (spans : List Span) (es : List Entry) (pos : Nat), ChainSp T pos spans →
      ChainOk T pos (anonGo T spans es).1 := by
  intro spans
  induction spans with
  | nil => intro es pos h; exact h
  | cons sp rest ih =>
    intro es pos h
    rcases hfk : findKey sp.typ (extractSub T sp.start sp.stop) es with _ | k
    · simp only [anonGo, hfk]
      exact ⟨h.1, h.2.1, ih _ sp.stop h.2.2⟩
    · simp only [anonGo, hfk]
      exact ⟨h.1, h.2.1, ih _ sp.stop h.2.2⟩

theorem anonGo_spec (T : List Char) :
    ∀ (spans : List Span) (es : List Entry), EntriesWf es →
      (∀ sp ∈ spans, '<' ∉ sp.typ ∧ '>' ∉ sp.typ) →
      EntriesWf (anonGo T spans es).2 ∧
      (∃ delta, (anonGo T spans es).2 = es ++ delta) ∧
      (∀ it ∈ (anonGo T spans es).1,
        shapedTokB it.key = true ∧
        (it.key, extractSub T it.s it.e) ∈
          (anonGo T spans es).2.map (fun e => (e.2.2, e.2.1))) := by
  intro spans
  induction spans with
  | nil =>
    intro es hwf _
    refine ⟨hwf, ⟨[], by simp [anonGo]⟩, ?_⟩
    intro it hit
    simp [anonGo] at hit
  | cons sp rest ih =>
    intro es hwf htyps
    have htsp : '<' ∉ sp.typ ∧ '>' ∉ sp.typ := htyps sp (List.mem_cons_self _ _)
    have htrest : ∀ x ∈ rest, '<' ∉ x.typ ∧ '>' ∉ x.typ :=
      fun x hx => htyps x (List.mem_cons_of_mem _ hx)
    rcases hfk : findKey sp.typ (extractSub T sp.start sp.stop) es with _ | k
    · -- mint a fresh placeholder
      simp only [anonGo, hfk]
      have hwf1 := entriesWf_append hwf (v := extractSub T sp.start sp.stop) htsp
      obtain ⟨hwfF, ⟨delta, hdelta⟩, hitems⟩ := ih _ hwf1 htrest
      refine ⟨hwfF, ⟨(sp.typ, extractSub T sp.start sp.stop,
        keyFor sp.typ (countType sp.typ es + 1)) :: delta, by rw [hdelta]; simp⟩, ?_⟩
      intro it hit
      rcases List.mem_cons.mp hit with he | hmem
      · subst he
        refine ⟨keyFor_shaped htsp _, ?_⟩
        have hentry : ((sp.typ, extractSub T sp.start sp.stop,
            keyFor sp.typ (countType sp.typ es + 1)) : Entry) ∈
            (anonGo T rest (es ++ [(sp.typ, extractSub T sp.start sp.stop,
              keyFor sp.typ (countType sp.typ es + 1))])).2 := by
          rw [hdelta]
          exact List.mem_append.mpr (Or.inl (List.mem_append.mpr (Or.inr
            (List.mem_singleton.mpr rfl))))
        exact List.mem_map_of_mem _ hentry
      · exact hitems it hmem
    · -- reuse the existing placeholder
      simp only [anonGo, hfk]
      obtain ⟨hwfF, ⟨delta, hdelta⟩, hitems⟩ := ih es hwf htrest
      have hentry : ((sp.typ, extractSub T sp.start sp.stop, k) : Entry) ∈ es :=
        findKey_mem hfk
      refine ⟨hwfF, ⟨delta, hdelta⟩, ?_⟩
      intro it hit
      rcases List.mem_cons.mp hit with he | hmem
      · subst he
        have hentryF : ((sp.typ, extractSub T sp.start sp.stop, k) : Entry) ∈
            (anonGo T rest es).2 := by
          rw [hdelta]
          exact List.mem_append.mpr (Or.inl hentry)
        refine ⟨?_, List.mem_map_of_mem _ hentryF⟩
        have := entry_key_shaped hwf hentry
        exact this
      · exact hitems it hmem

/-- The keys of the mapping produced by `anonymize` are pairwise distinct. -/
theorem anonymize_keys_nodup {T : List Char} {spans : List Span}
    (hwfF : EntriesWf (anonGo T (acceptSpans 0 (sortByStart spans)) []).2) :
    ((anonymize T spans).2.map Prod.fst).Nodup := by
  show ((((anonGo T (acceptSpans 0 (sortByStart spans)) []).2).map
    (fun e => (e.2.2, e.2.1))).map Prod.fst).Nodup
  rw [List.map_map]
  exact hwfF.2.2

/-- Round trip of the anonymization pipeline: under valid span boundaries,
bracket-free entity types, and no produced placeholder occurring literally in
the source text, deanonymizing the anonymized text against the produced
mapping restores the source text exactly. -/
theorem anonymize_deanonymize (T : List Char) (spans : List Span)
    (hb : ∀ sp ∈ spans, sp.start < sp.stop ∧ sp.stop ≤ T.length)
    (ht : ∀ sp ∈ spans, '<' ∉ sp.typ ∧ '>' ∉ sp.typ)
    (hk : ∀ k ∈ (anonymize T spans).2.map Prod.fst, ¬ k <:+: T) :
    deanonymize (anonymize T spans).1 (anonymize T spans).2 = T := by
  have hsort_mem : ∀ x ∈ sortByStart spans, x ∈ spans :=
    fun x hx => (sortByStart_perm spans).mem_iff.mp hx
  have hacc_mem : ∀ x ∈ acceptSpans 0 (sortByStart spans), x ∈ spans :=
    fun x hx => hsort_mem x (acceptSpans_sub _ 0 x hx)
  have hchainSp : ChainSp T 0 (acceptSpans 0 (sortByStart spans)) :=
    accept_chain T _ 0 (Nat.zero_le _) (fun sp hsp => hb sp (hsort_mem sp hsp))
  obtain ⟨hwfF, _, hitems⟩ :=
    anonGo_spec T (acceptSpans 0 (sortByStart spans)) [] entriesWf_nil
      (fun sp hsp => ht sp (hacc_mem sp hsp))
  have hchain : ChainOk T 0 (anonGo T (acceptSpans 0 (sortByStart spans)) []).1 :=
    anonGo_chain T _ [] 0 hchainSp
  have hnodup : ((anonymize T spans).2.map Prod.fst).Nodup := anonymize_keys_nodup hwfF
  have hmap_eq : (anonymize T spans).2
      = ((anonGo T (acceptSpans 0 (sortByStart spans)) []).2).map
          (fun e => (e.2.2, e.2.1)) := rfl
  have hkeys_shaped : ∀ k ∈ (anonymize T spans).2.map Prod.fst, shapedTokB k = true := by
    intro k hkm
    rw [hmap_eq, List.map_map] at hkm
    obtain ⟨e, he, hek⟩ := List.mem_map.mp hkm
    rw [← hek]
    exact entry_key_shaped hwfF he
  have hitems_shaped : ∀ it ∈ (anonGo T (acceptSpans 0 (sortByStart spans)) []).1,
      shapedTokB it.key = true := fun it hit => (hitems it hit).1
  have hlink : ∀ it ∈ (anonGo T (acceptSpans 0 (sortByStart spans)) []).1,
      getVal (anonymize T spans).2 it.key = extractSub T it.s it.e := by
    intro it hit
    have hmem : (it.key, extractSub T it.s it.e) ∈ (anonymize T spans).2 := by
      rw [hmap_eq]
      exact (hitems it hit).2
    unfold getVal
    rw [lookup_eq_of_mem_nodup hmem hnodup]
    rfl
  have hkeys_mem : ∀ it ∈ (anonGo T (acceptSpans 0 (sortByStart spans)) []).1,
      it.key ∈ (anonymize T spans).2.map Prod.fst := by
    intro it hit
    have hmem : (it.key, extractSub T it.s it.e) ∈ (anonymize T spans).2 := by
      rw [hmap_eq]
      exact (hitems it hit).2
    exact List.mem_map_of_mem Prod.fst hmem
  have htext_eq : (anonymize T spans).1
      = renderItems T 0 (anonGo T (acceptSpans 0 (sortByStart spans)) []).1 := rfl
  rw [htext_eq, deanonymize_eq_foldl]
  rw [foldl_replace_render T (anonymize T spans).2 hk hkeys_shaped
    (sortByLenDesc ((anonymize T spans).2.map Prod.fst))
    (fun k hks => mem_sortByLenDesc.mp hks)
    _ 0 hchain hitems_shaped hlink]
  rw [show ((anonGo T (acceptSpans 0 (sortByStart spans)) []).1.filter
      (fun it => decide (it.key ∉
        sortByLenDesc ((anonymize T spans).2.map Prod.fst)))) = [] from
    List.filter_eq_nil_iff.mpr (by
      intro it hit hdec
      rw [decide_eq_true_eq] at hdec
      exact hdec (mem_sortByLenDesc.mpr (hkeys_mem it hit)))]
  show extractSub T 0 T.length = T
  exact extractSub_full T

/-! ### Remaining helpers -/

/-- A full grammar token: the anchored regex matches it entirely. -/
def grammarTokB (k : List Char) : Bool := matchTokenAt k == some k

theorem grammarTokB_iff {k : List Char} :
    grammarTokB k = true ↔ PlaceholderGrammar k := by
  constructor
  · intro h
    have he : matchTokenAt k = some k := by
      unfold grammarTokB at h
      exact beq_iff_eq.mp h
    obtain ⟨hg, rest', hrest⟩ := matchTokenAt_spec he
    exact hg
  · intro hg
    unfold grammarTokB
    have := matchTokenAt_of_grammar hg []
    rw [List.append_nil] at this
    rw [this]
    simp

theorem foldl_keys_no_occur (m : Mapping) (text : List Char) :
    ∀ ks : List (List Char), (∀ k ∈ ks, ¬ k <:+: text) →
      ks.foldl (fun r k => splitJoin k (getVal m k) r) text = text := by
  intro ks
  induction ks with
  | nil => intro _; rfl
  | cons k ks ih =>
    intro h
    have hk := h k (List.mem_cons_self _ _)
    have hkne : k ≠ [] := by
      intro he
      exact hk (he ▸ ⟨[], text, by simp⟩)
    simp only [List.foldl_cons]
    rw [show splitJoin k (getVal m k) text = replaceAll k (getVal m k) text by
      unfold splitJoin; rw [if_neg hkne]]
    rw [replaceAll_no_occurrence (getVal m k) text hk]
    exact ih (fun x hx => h x (List.mem_cons_of_mem _ hx))

/-- If no key of the mapping occurs in the text, `deanonymize` is the
identity on it. -/
theorem deanonymize_no_key_occurs (text : List Char) (m : Mapping)
    (h : ∀ k ∈ m.map Prod.fst, ¬ k <:+: text) :
    deanonymize text m = text := by
  rw [deanonymize_eq_foldl]
  exact foldl_keys_no_occur m text _ (fun k hk => h k (mem_sortByLenDesc.mp hk))

theorem flattenChunks_append (a b : List Chunk) :
    flattenChunks (a ++ b) = flattenChunks a ++ flattenChunks b := by
  induction a with
  | nil => simp [flattenChunks]
  | cons c cs ih =>
    rcases c with s | k
    · show s ++ flattenChunks (cs ++ b) = (s ++ flattenChunks cs) ++ flattenChunks b
      rw [ih, List.append_assoc]
    · show k ++ flattenChunks (cs ++ b) = (k ++ flattenChunks cs) ++ flattenChunks b
      rw [ih, List.append_assoc]

theorem deanonymize_nil_text (m : Mapping) : deanonymize [] m = [] := by
  unfold deanonymize
  rw [if_pos (Or.inl rfl)]

/-- The spec's placeholder grammar read literally: `<` + uppercase name
(letters/underscores) + `_` + a positive integer + `>`; the digit part must
denote a number greater than zero. -/
def PlaceholderGrammarStrict (s : List Char) : Prop :=
  ∃ w d, w ≠ [] ∧ (∀ c ∈ w, isTypeChar c = true) ∧ d ≠ [] ∧ (∀ c ∈ d, isDigitCh c = true) ∧
    0 < readNat d ∧ s = '<' :: (w ++ '_' :: (d ++ ['>']))

/-! ### Claim theorems -/

/-- C1, counterexample: for the text `<PERSON_1>x` with a single valid
PERSON span on the final `x`, anonymization produces the mapping
`{<PERSON_1> ↦ x}` and the anonymized text `<PERSON_1><PERSON_1>`, and
deanonymizing yields `xx`, not the original text: the round-trip law fails
as stated even though no span has malformed boundaries, because the original
text already contains the minted placeholder. -/
theorem claim_C1_cex :
    (∀ sp ∈ [(⟨"PERSON".data, 10, 11⟩ : Span)],
        sp.start < sp.stop ∧ sp.stop ≤ "<PERSON_1>x".data.length) ∧
    (∀ sp ∈ [(⟨"PERSON".data, 10, 11⟩ : Span)], '<' ∉ sp.typ ∧ '>' ∉ sp.typ) ∧
    (anonymize "<PERSON_1>x".data [⟨"PERSON".data, 10, 11⟩]).2
      = [("<PERSON_1>".data, "x".data)] ∧
    deanonymize (anonymize "<PERSON_1>x".data [⟨"PERSON".data, 10, 11⟩]).1
      (anonymize "<PERSON_1>x".data [⟨"PERSON".data, 10, 11⟩]).2 = "xx".data ∧
    "xx".data ≠ "<PERSON_1>x".data := by
  refine ⟨by decide, by decide, by decide, by decide, by decide⟩

/-- C1 (amended): for every text T and spans with valid boundaries
(`start < stop ≤ |T|`), entity types free of angle brackets, and no produced
placeholder key occurring as a substring of T, deanonymizing the anonymized
text against the produced mapping restores T exactly. -/
theorem claim_C1_roundtrip (T : List Char) (spans : List Span)
    (hb : ∀ sp ∈ spans, sp.start < sp.stop ∧ sp.stop ≤ T.length)
    (ht : ∀ sp ∈ spans, '<' ∉ sp.typ ∧ '>' ∉ sp.typ)
    (hk : ∀ k ∈ (anonymize T spans).2.map Prod.fst, ¬ k <:+: T) :
    deanonymize (anonymize T spans).1 (anonymize T spans).2 = T :=
  anonymize_deanonymize T spans hb ht hk

/-- C1, witness at the spec's end-to-end example. -/
theorem claim_C1_witness :
    deanonymize
      (anonymize "Email john@acme.com about his $85k salary".data
        [⟨"EMAIL_ADDRESS".data, 6, 19⟩, ⟨"SALARY".data, 30, 34⟩]).1
      (anonymize "Email john@acme.com about his $85k salary".data
        [⟨"EMAIL_ADDRESS".data, 6, 19⟩, ⟨"SALARY".data, 30, 34⟩]).2
      = "Email john@acme.com about his $85k salary".data :=
  claim_C1_roundtrip _ _ (by decide) (by decide) (by decide)

/-- C2, counterexample: with the mapping `{<A_1> ↦ x}` and the split
`"<A_" / "1>"`, per-chunk deanonymization concatenates to `<A_1>` while
deanonymizing the whole string yields `x`; the final chunk `1>` contains no
`<` at all, so no placeholder token is incomplete at the final chunk, yet the
results differ because the token straddles the interior chunk boundary. -/
theorem claim_C2_cex :
    deanonymize "<A_".data [("<A_1>".data, "x".data)]
        ++ deanonymize "1>".data [("<A_1>".data, "x".data)] = "<A_1>".data ∧
    deanonymize ("<A_".data ++ "1>".data) [("<A_1>".data, "x".data)] = "x".data ∧
    ("<A_1>".data : List Char) ≠ "x".data ∧
    '<' ∉ "1>".data := by
  refine ⟨by decide, by decide, by decide, by decide⟩

/-- C2 (amended): for a mapping whose keys are placeholder-shaped and whose
values contain no `<`, and a division of the text into chunks at placeholder
boundaries (each chunk an alternation of `<`-free segments and complete
placeholder-shaped tokens, so no token straddles a chunk boundary),
deanonymizing each chunk and concatenating equals deanonymizing the whole
string at once. -/
theorem claim_C2_streaming (m : Mapping) (css : List (List Chunk))
    (hk : ∀ k ∈ m.map Prod.fst, shapedTokB k = true)
    (hv : ∀ kv ∈ m, '<' ∉ kv.2)
    (hg : ∀ cs ∈ css, ∀ c ∈ cs, goodChunkB c = true) :
    (css.map (fun cs => deanonymize (flattenChunks cs) m)).flatten
      = deanonymize (flattenChunks css.flatten) m := by
  induction css with
  | nil =>
    show ([] : List Char) = deanonymize (flattenChunks []) m
    rw [show flattenChunks [] = [] from rfl, deanonymize_nil_text]
  | cons cs css ih =>
    have h1 : ∀ c ∈ cs, goodChunkB c = true := hg cs (List.mem_cons_self _ _)
    have h2 : ∀ x ∈ css, ∀ c ∈ x, goodChunkB c = true :=
      fun x hx => hg x (List.mem_cons_of_mem _ hx)
    have hgj : ∀ c ∈ css.flatten, goodChunkB c = true := by
      intro c hc
      obtain ⟨l, hl, hcl⟩ := List.mem_flatten.mp hc
      exact h2 l hl c hcl
    have hgcons : ∀ c ∈ cs ++ css.flatten, goodChunkB c = true := by
      intro c hc
      rcases List.mem_append.mp hc with hc1 | hc1
      · exact h1 c hc1
      · exact hgj c hc1
    show deanonymize (flattenChunks cs) m
        ++ (css.map (fun cs => deanonymize (flattenChunks cs) m)).flatten = _
    rw [deanonymize_chunks_eq m cs hk hv h1, ih h2]
    rw [deanonymize_chunks_eq m css.flatten hk hv hgj]
    rw [show (cs :: css).flatten = cs ++ css.flatten from rfl]
    rw [deanonymize_chunks_eq m (cs ++ css.flatten) hk hv hgcons]
    unfold substituteTokens
    rw [List.map_append, flattenChunks_append]

/-- C2, witness: a three-chunk stream split at token boundaries. -/
theorem claim_C2_witness :
    ([[Chunk.piece "Dear ".data, Chunk.tok "<PERSON_1>".data],
      [Chunk.piece ", from ".data, Chunk.tok "<PERSON_1>".data],
      [Chunk.piece "!".data]].map
        (fun cs => deanonymize (flattenChunks cs) [("<PERSON_1>".data, "Alice".data)])).flatten
      = deanonymize
          (flattenChunks [[Chunk.piece "Dear ".data, Chunk.tok "<PERSON_1>".data],
            [Chunk.piece ", from ".data, Chunk.tok "<PERSON_1>".data],
            [Chunk.piece "!".data]].flatten)
          [("<PERSON_1>".data, "Alice".data)] :=
  claim_C2_streaming _ _ (by decide) (by decide) (by decide)

/-- C3, counterexample: with the mapping
`{<A_1> ↦ x<B_1>y, <B_1> ↦ z}`, deanonymizing `<A_1>` yields `xzy`: the
occurrence of `<B_1>` that entered the output only as part of the
substituted original value `x<B_1>y` was itself replaced in the later
iteration for the shorter key, so substituted values are re-interpreted. -/
theorem claim_C3_cex :
    deanonymize "<A_1>".data
        [("<A_1>".data, "x<B_1>y".data), ("<B_1>".data, "z".data)] = "xzy".data ∧
    ("xzy".data : List Char) ≠ "x<B_1>y".data := by
  refine ⟨by decide, by decide⟩

/-- C3 (amended): replacement is exact-string (never regex), and when the
text is an alternation of `<`-free segments and complete placeholder-shaped
tokens and every mapping value contains no `<`, deanonymize equals the
one-pass simultaneous substitution: each token is replaced exactly once via a
single lookup and substituted original values are left intact, never
re-scanned.  (Without the `<`-free value condition the sequential passes can
re-interpret a substituted value, as the counterexample shows.) -/
theorem claim_C3_exact_substitution (m : Mapping) (cs : List Chunk)
    (hk : ∀ k ∈ m.map Prod.fst, shapedTokB k = true)
    (hv : ∀ kv ∈ m, '<' ∉ kv.2)
    (hg : ∀ c ∈ cs, goodChunkB c = true) :
    deanonymize (flattenChunks cs) m = flattenChunks (substituteTokens m cs) :=
  deanonymize_chunks_eq m cs hk hv hg

/-- C3, witness on a concrete chunked text. -/
theorem claim_C3_witness :
    deanonymize
        (flattenChunks [Chunk.piece "To: ".data, Chunk.tok "<EMAIL_ADDRESS_2>".data,
          Chunk.piece " today".data])
        [("<EMAIL_ADDRESS_2>".data, "bob@x.io".data)]
      = flattenChunks (substituteTokens [("<EMAIL_ADDRESS_2>".data, "bob@x.io".data)]
          [Chunk.piece "To: ".data, Chunk.tok "<EMAIL_ADDRESS_2>".data,
            Chunk.piece " today".data]) :=
  claim_C3_exact_substitution _ _ (by decide) (by decide) (by decide)

/-- C4: `deanonymize` substitutes along the mapping's keys ordered by token
length descending: the fold list is a permutation of the keys, it is sorted
by length descending (so every longer key is applied before any shorter
one), and `deanonymize` equals the fold of `split`/`join` replacement over
that list. -/
theorem claim_C4_order (text : List Char) (m : Mapping) :
    (sortByLenDesc (m.map Prod.fst)).Perm (m.map Prod.fst) ∧
    List.Pairwise (fun a b : List Char => b.length ≤ a.length)
      (sortByLenDesc (m.map Prod.fst)) ∧
    deanonymize text m = (sortByLenDesc (m.map Prod.fst)).foldl
      (fun r k => splitJoin k (getVal m k) r) text :=
  ⟨sortByLenDesc_perm _, sortByLenDesc_pairwise _, deanonymize_eq_foldl text m⟩

/-- C5: `deanonymize` is a total function, and whenever no key of the
mapping occurs in the text as an exact substring — in particular for text
ending in a partial placeholder such as `<PERSO`, or containing structurally
invalid placeholders — it returns the text unmodified. -/
theorem claim_C5_passthrough (text : List Char) (m : Mapping)
    (h : ∀ k ∈ m.map Prod.fst, ¬ k <:+: text) :
    deanonymize text m = text :=
  deanonymize_no_key_occurs text m h

/-- C5, witness: a chunk ending in the partial token `<PERSO` is passed
through unmodified. -/
theorem claim_C5_witness :
    deanonymize "Hello <PERSO".data
      [("<PERSON_1>".data, "Alice".data), ("<SALARY_1>".data, "$95k".data)]
      = "Hello <PERSO".data :=
  claim_C5_passthrough _ _ (by decide)

/-- C6: when every mapping key is a full placeholder-grammar token and the
result of `deanonymize` contains no remaining placeholders (the
`containsPlaceholders` test fails on it), applying `deanonymize` again
changes nothing. -/
theorem claim_C6_idempotent (text : List Char) (m : Mapping)
    (hk : ∀ k ∈ m.map Prod.fst, grammarTokB k = true)
    (h : containsPlaceholders (deanonymize text m) = false) :
    deanonymize (deanonymize text m) m = deanonymize text m := by
  apply deanonymize_no_key_occurs
  intro k hkm hinf
  have hg : PlaceholderGrammar k := grammarTokB_iff.mp (hk k hkm)
  rw [grammar_infix_contains hg hinf] at h
  exact Bool.noConfusion h

/-- C6, witness. -/
theorem claim_C6_witness :
    deanonymize (deanonymize "Hi <PERSON_3>.".data [("<PERSON_3>".data, "Maya".data)])
        [("<PERSON_3>".data, "Maya".data)]
      = deanonymize "Hi <PERSON_3>.".data [("<PERSON_3>".data, "Maya".data)] :=
  claim_C6_idempotent _ _ (by decide) (by decide)

/-- C7: every occurrence of each mapping key is replaced, not only the
first; in particular the spec's example reply deanonymizes as stated, and a
text with two occurrences of the same placeholder has both replaced. -/
theorem claim_C7_example :
    deanonymize "I've sent it to <EMAIL_ADDRESS_1>.".data
      [("<EMAIL_ADDRESS_1>".data, "john@acme.com".data), ("<SALARY_1>".data, "$85k".data)]
      = "I've sent it to john@acme.com.".data ∧
    deanonymize "<SALARY_1> and <SALARY_1>".data
      [("<EMAIL_ADDRESS_1>".data, "john@acme.com".data), ("<SALARY_1>".data, "$85k".data)]
      = "$85k and $85k".data := by
  refine ⟨by decide, by decide⟩

/-- C8, counterexample: the source regex accepts a zero index — the text
`<A_0>` makes `containsPlaceholders` return true, yet no substring of it is
a grammar token with a positive integer index, since its digit part reads as
zero. -/
theorem claim_C8_cex :
    containsPlaceholders "<A_0>".data = true ∧
    ∀ s, s <:+: "<A_0>".data → ¬ PlaceholderGrammarStrict s := by
  constructor
  · decide
  · rintro s hinf ⟨w, d, hw, _, hd, hdd, hpos, hs⟩
    have hwl : 1 ≤ w.length := List.length_pos.mpr hw
    have hdl : 1 ≤ d.length := List.length_pos.mpr hd
    have hslen : s.length = w.length + d.length + 3 := by
      rw [hs]; simp; omega
    have hle : s.length ≤ 5 := by
      have := hinf.length_le
      simpa using this
    have hw1 : w.length = 1 := by omega
    have hd1 : d.length = 1 := by omega
    obtain ⟨p, q, hpq⟩ := hinf
    have hpq' := congrArg List.length hpq
    simp only [List.length_append] at hpq'
    have hp0 : p = [] := List.eq_nil_of_length_eq_zero (by
      rw [show ("<A_0>".data : List Char).length = 5 from rfl] at hpq'
      omega)
    have hq0 : q = [] := List.eq_nil_of_length_eq_zero (by
      rw [show ("<A_0>".data : List Char).length = 5 from rfl] at hpq'
      omega)
    rw [hp0, hq0, List.nil_append, List.append_nil] at hpq
    obtain ⟨w0, hw0⟩ := List.length_eq_one.mp hw1
    obtain ⟨d0, hd0⟩ := List.length_eq_one.mp hd1
    rw [hs, hw0, hd0] at hpq
    simp only [List.cons_append, List.singleton_append, List.nil_append,
      List.cons.injEq] at hpq
    have hd0v : d0 = '0' := hpq.2.2.2.1
    rw [hd0, hd0v] at hpos
    exact absurd hpos (by decide)

/-- C8 (amended): `containsPlaceholders` returns true exactly when the text
contains a substring of the form `<` + uppercase name (letters/underscores)
+ `_` + non-empty digit sequence + `>`; the index may be any digit string,
including `0`, not only a positive integer. -/
theorem claim_C8_grammar (text : List Char) :
    containsPlaceholders text = true ↔ ∃ s, PlaceholderGrammar s ∧ s <:+: text :=
  contains_iff_grammar_sub text

/-- C8, witness. -/
theorem claim_C8_witness : containsPlaceholders "pay <SALARY_2> now".data = true :=
  (claim_C8_grammar _).mpr ⟨"<SALARY_2>".data,
    ⟨"SALARY".data, "2".data, by decide, by decide, by decide, by decide, by decide⟩,
    by decide⟩

/-- C9: `deanonymize` of the empty string is the empty string for every
mapping, and an empty mapping returns every text unchanged (both via the
guard clause of the source). -/
theorem claim_C9_empty :
    (∀ m : Mapping, deanonymize [] m = []) ∧ (∀ text : List Char, deanonymize text [] = text) := by
  constructor
  · intro m
    exact deanonymize_nil_text m
  · intro text
    unfold deanonymize
    rw [if_pos (Or.inr rfl)]

/-- C10: `extractPlaceholders` returns a duplicate-free list; each element
is a substring of the text matching the placeholder pattern
`<[A-Z_]+_\d+>`; and every leftmost non-overlapping regex match of the text
(the `scanMatches` list) appears in the result. -/
theorem claim_C10_extract (text : List Char) :
    (extractPlaceholders text).Nodup ∧
    (∀ s ∈ extractPlaceholders text, PlaceholderGrammar s ∧ s <:+: text) ∧
    (∀ s ∈ scanMatches text, s ∈ extractPlaceholders text) := by
  refine ⟨dedupFirstAux_nodup _ [], ?_, ?_⟩
  · intro s hs
    have hsm : s ∈ scanMatches text := (dedupFirstAux_sub _ [] s hs).1
    exact scanMatches_spec text.length text (Nat.le_refl _) s hsm
  · intro s hs
    exact mem_dedupFirstAux _ [] s hs (by simp)

/-- C10, witness: the repeated `<B_1>` is reported once, and it is a
grammar-conformant substring. -/
theorem claim_C10_witness :
    ("<B_1>".data ∈ extractPlaceholders "a <B_1> b <B_1>, <C_2>".data) ∧
    (PlaceholderGrammar "<B_1>".data ∧
      "<B_1>".data <:+: "a <B_1> b <B_1>, <C_2>".data) :=
  ⟨(claim_C10_extract "a <B_1> b <B_1>, <C_2>".data).2.2 "<B_1>".data (by decide),
    (claim_C10_extract "a <B_1> b <B_1>, <C_2>".data).2.1 "<B_1>".data (by decide)⟩

end GlassBox
